import Mathlib

/-!
# A shallow embedding of `sweep_filenames.py`

This file embeds the template-inference engine of `sweep_filenames.py` and
proves the specification claims about it.

`template_regex(filename)` reverses the filename and tries, in order, the three
compiled patterns

  `([0-9]+)\.(.*)` , `(.*)\.([0-9]+)_(.*)` , `(.*)\.([0-9]+)(.*)`

with `re.match` (anchored at the start of the reversed string, prefix match).
The embedding implements the exact matching semantics of these three patterns:

* `[0-9]+` is greedy and consists of a single character class, so it always
  denotes the maximal digit run starting at its position (shrinking the run
  during backtracking puts a digit where the following literal is required,
  which can never succeed);
* a leading greedy `(.*)` cannot cross a newline and backtracks from the right,
  so the whole pattern matches at the *largest* starting offset at which the
  remainder of the pattern matches (`lastPos` below);
* a trailing `(.*)` captures everything up to the first newline (or the end),
  and `re.match` succeeds as a prefix match.

The group post-processing, `group_files_by_imageset` and
`find_matching_images` are embedded directly; the directory listing read by
`os.listdir` is passed to `find_matching_images` as an explicit argument.
The `%`-formatting `template_str % j` that renders each probed name is
modelled by `pyMod`, an embedding of CPython's formatting scanner for a
single nonnegative integer argument in which every exception is `none`, so
`find_matching_images` — whose exceptions propagate to the caller — returns
an `Option (List String)`.
-/

/-- The character class `[0-9]` of the patterns: code points 48–57. -/
def isDig (c : Char) : Bool := decide (48 ≤ c.toNat) && decide (c.toNat ≤ 57)

/-- `.` in the patterns matches any character except a newline. -/
def notNL (c : Char) : Bool := decide (c ≠ '\n')

/-- Reversed pattern 0, `([0-9]+)\.(.*)`, matched against the start of the
reversed filename: a maximal nonempty digit run, a literal `.`, then `(.*)`
capturing up to the first newline.  Returns the two capture groups. -/
def matchP0 (r : List Char) : Option (List Char × List Char) :=
  let d := r.takeWhile isDig
  if 0 < d.length ∧ (r.drop d.length).head? = some '.' then
    some (d, (r.drop (d.length + 1)).takeWhile notNL)
  else none

/-- The local condition for reversed pattern 1, `(.*)\.([0-9]+)_(.*)`, to match
at a given suffix of the reversed filename: a literal `.`, a nonempty maximal
digit run, then a literal `_`. -/
def localP1 : List Char → Bool
  | [] => false
  | c :: rest =>
    decide (c = '.') &&
      (decide (0 < (rest.takeWhile isDig).length) &&
        decide ((rest.drop (rest.takeWhile isDig).length).head? = some '_'))

/-- The local condition for reversed pattern 2, `(.*)\.([0-9]+)(.*)`, to match
at a given suffix of the reversed filename: a literal `.` then a nonempty digit
run. -/
def localP2 : List Char → Bool
  | [] => false
  | c :: rest => decide (c = '.') && decide (0 < (rest.takeWhile isDig).length)

/-- The offset at which a pattern starting with a greedy `(.*)` matches: the
largest position whose suffix satisfies the local condition `p`, subject to the
captured prefix containing no newline (regex `.` does not match `\n`). -/
def lastPos (p : List Char → Bool) : List Char → Option Nat
  | [] => none
  | c :: rest =>
    match (if c = '\n' then none else lastPos p rest) with
    | some i => some (i + 1)
    | none => if p (c :: rest) then some 0 else none

/-- `posOk p r i`: the pattern whose local condition is `p` matches at offset
`i` of `r` — the skipped prefix contains no newline and the suffix satisfies
`p`.  `lastPos` returns the greatest such offset (see `lastPos_spec`). -/
def posOk (p : List Char → Bool) (r : List Char) (i : Nat) : Bool :=
  (r.take i).all notNL && p (r.drop i)

/-- Capture groups of reversed pattern 1 at offset `i`: the prefix before the
`.`, the digit run, and the `(.*)` group following the `_` (up to a newline). -/
def p1Extract (r : List Char) (i : Nat) : List Char × List Char × List Char :=
  let rest := r.drop (i + 1)
  let d := rest.takeWhile isDig
  (r.take i, d, (rest.drop (d.length + 1)).takeWhile notNL)

/-- Capture groups of reversed pattern 2 at offset `i`. -/
def p2Extract (r : List Char) (i : Nat) : List Char × List Char × List Char :=
  let rest := r.drop (i + 1)
  let d := rest.takeWhile isDig
  (r.take i, d, (rest.drop d.length).takeWhile notNL)

/-- Reversed pattern 1, `(.*)\.([0-9]+)_(.*)`: groups at the greedy offset. -/
def matchP1 (r : List Char) : Option (List Char × List Char × List Char) :=
  (lastPos localP1 r).map (p1Extract r)

/-- Reversed pattern 2, `(.*)\.([0-9]+)(.*)`: groups at the greedy offset. -/
def matchP2 (r : List Char) : Option (List Char × List Char × List Char) :=
  (lastPos localP2 r).map (p2Extract r)

/-- The loop body of `template_regex`: try the three patterns in order on the
reversed filename and, for the first that matches, un-reverse the groups and
attach the pattern's joiner (`"."`, `"_"`, `""`), yielding
`(prefix, digits, exten)` exactly as the source assigns them.  `none` means no
pattern matched. -/
def inferT (filename : String) : Option (List Char × List Char × List Char) :=
  let r := filename.data.reverse
  match matchP0 r with
  | some (g0, g1) => some (g1.reverse ++ ['.'], g0.reverse, [])
  | none =>
    match matchP1 r with
    | some (g0, g1, g2) => some (g2.reverse ++ ['_'], g1.reverse, '.' :: g0.reverse)
    | none =>
      match matchP2 r with
      | some (g0, g1, g2) => some (g2.reverse, g1.reverse, '.' :: g0.reverse)
      | none => none

/-- `"".join("#" for d in digits)`. -/
def hashes (n : Nat) : List Char := List.replicate n '#'

/-- `int(digits)` on a string of decimal digits. -/
def digitsVal (ds : List Char) : Nat :=
  ds.foldl (fun a c => 10 * a + (c.toNat - 48)) 0

/-- `template_regex`: the returned template string
`prefix + "#"*len(digits) + exten` and the integer value of the digit run
(`(None, 0)` when no pattern matches, since `digits` is then the integer `0`). -/
def template_regex (filename : String) : Option String × Nat :=
  match inferT filename with
  | some (pfx, dgts, ext) =>
    (some (String.mk (pfx ++ hashes dgts.length ++ ext)), digitsVal dgts)
  | none => (none, 0)

/-- Heuristic 1 (bare numeric suffix) on its own: pattern 0 applied to the
reversed filename, with its joiner `"."`. -/
def bareNumeric (f : String) : Option (List Char × List Char × List Char) :=
  (matchP0 f.data.reverse).map (fun g => (g.2.reverse ++ ['.'], g.1.reverse, []))

/-- Heuristic 2 (underscore-delimited suffix) on its own: pattern 1 applied to
the reversed filename, with its joiner `"_"`. -/
def underscoreDelim (f : String) : Option (List Char × List Char × List Char) :=
  (matchP1 f.data.reverse).map
    (fun g => (g.2.2.reverse ++ ['_'], g.2.1.reverse, '.' :: g.1.reverse))

/-- Heuristic 3 (generic suffix) on its own: pattern 2 applied to the reversed
filename, with its empty joiner. -/
def genericTail (f : String) : Option (List Char × List Char × List Char) :=
  (matchP2 f.data.reverse).map
    (fun g => (g.2.2.reverse, g.2.1.reverse, '.' :: g.1.reverse))

/-- The pair appended per file by `group_files_by_imageset`: the group key and
the appended value (`(f, None)` when no template is found, `(template, index)`
otherwise). -/
def keyValue (f : String) : String × Option Nat :=
  match template_regex f with
  | (some t, i) => (t, some i)
  | (none, _) => (f, none)

/-- `matched[t[0]].append(t[1])` on an insertion-ordered association list:
append the value to the entry of the key, creating the entry at the end if the
key is new (the `defaultdict(list)` behaviour). -/
def addEntry : List (String × List (Option Nat)) → String → Option Nat →
    List (String × List (Option Nat))
  | [], k, v => [(k, [v])]
  | (k', vs) :: rest, k, v =>
    if k' = k then (k', vs ++ [v]) :: rest else (k', vs) :: addEntry rest k v

/-- `group_files_by_imageset`. -/
def group_files_by_imageset (filenames : List String) :
    List (String × List (Option Nat)) :=
  (filenames.map keyValue).foldl (fun m kv => addEntry m kv.1 kv.2) []

/-- The value list stored for a key (`[]` when the key is absent). -/
def lookupVals (m : List (String × List (Option Nat))) (k : String) :
    List (Option Nat) :=
  match m with
  | [] => []
  | (k', vs) :: rest => if k' = k then vs else lookupVals rest k

/-- Total length of all value lists of the grouping. -/
def sumLens (m : List (String × List (Option Nat))) : Nat :=
  (m.map (fun kv => kv.2.length)).sum

/-- `os.path.split` (POSIX): split after the last `/`; the head keeps its
trailing slashes only when it consists of slashes alone. -/
def splitPath (p : String) : String × String :=
  let cs := p.data
  let tl := (cs.reverse.takeWhile (fun c => decide (c ≠ '/'))).reverse
  let hd := cs.take (cs.length - tl.length)
  let hd' := if hd.all (fun c => decide (c = '/')) then hd
             else (hd.reverse.dropWhile (fun c => decide (c = '/'))).reverse
  (String.mk hd', String.mk tl)

/-- `os.path.join` (POSIX) for two components. -/
def joinPath (a b : String) : String :=
  if b.data.head? = some '/' then b
  else if a = "" ∨ a.data.getLast? = some '/' then a ++ b
  else a ++ "/" ++ b

/-- `"%0Nd" % j` for `j < 10 ^ width`: the decimal digits of `j`, left-padded
with `'0'` to exactly `width` characters.  (Python's rendering never truncates
a value wider than the field; in this development the rendering is only ever
applied with `j < 10 ^ width` — the materializer's loop range and the
round-trip hypothesis — where the two agree, and this structural form reduces
in the kernel.) -/
def pctD : Nat → Nat → List Char
  | 0, _ => []
  | w + 1, j => pctD w (j / 10) ++ [Nat.digitChar (j % 10)]

/-- `template.count("#")`. -/
def hashCount (t : String) : Nat := t.data.count '#'

/-- `template.split("#")[0]`: the part before the first `#`. -/
def splitPfx (t : String) : List Char :=
  t.data.takeWhile (fun c => decide (c ≠ '#'))

/-- `template.split("#")[-1]`: the part after the last `#`. -/
def splitSfx (t : String) : List Char :=
  (t.data.reverse.takeWhile (fun c => decide (c ≠ '#'))).reverse

/-- The name `template_str % j` renders to in the `'%'`-free case: prefix,
zero-padded index, suffix.  `pyMod_template` below proves that whenever the
split prefix and suffix contain no `'%'` character and `j < 10 ^ hashCount t`,
CPython's `%`-formatting of the template string produces exactly this name;
with a `'%'` in the template the two diverge (`'%%'` collapses to a literal
`'%'`, a stray `'%'` raises). -/
def renderName (t : String) (j : Nat) : String :=
  String.mk (splitPfx t ++ pctD (hashCount t) j ++ splitSfx t)

/-- The directory used by `find_matching_images`: the split head, or `"."`
when it is empty. -/
def dirOf (p : String) : String :=
  if (splitPath p).1 = "" then "." else (splitPath p).1

/-!
### CPython `%`-formatting

`template_str % j` is rendered by `pyMod`, a model of CPython 3's
`PyUnicode_Format` for a format string applied to a single nonnegative
integer argument.  Ordinary characters are copied, an immediately doubled
`%%` emits a literal `%`, and any other `%` begins a conversion specifier
`%[flags][width][.precision][length modifier]type`.  Every exception —
`ValueError` for a malformed specifier or an unsupported conversion
character, `TypeError` when the number of argument-consuming conversions is
not exactly one (or a `*` width/precision or a `(...)` mapping key asks for
more than the single integer argument), `OverflowError` for a `c` conversion
out of range — is modelled as `none`.  Two corners are deliberately outside
the model and also map to `none`: the float conversions `e E f F g G`
(CPython routes the integer through a C `double`) and a `c` conversion of a
surrogate code point (CPython builds a lone-surrogate string, which a `Char`
cannot carry).  Both can be reached only by `%` directives carried into the
template by the filename itself, never by the one directive
`find_matching_images` inserts.  Resource-exhaustion failures (a width too
large to allocate) are likewise outside the model.
-/

/-- Flag characters of a conversion specifier: `#`, `0`, `-`, space, `+`. -/
def isFlag (c : Char) : Bool :=
  decide (c = '#') || decide (c = '0') || decide (c = '-') ||
    decide (c = ' ') || decide (c = '+')

/-- Length modifiers `h`, `l`, `L`: accepted (at most one) and ignored. -/
def isLenMod (c : Char) : Bool :=
  decide (c = 'h') || decide (c = 'l') || decide (c = 'L')

/-- Fuel-driven count of base-10 digits of `n` (at least 1 with fuel). -/
def decLenAux : Nat → Nat → Nat
  | 0, _ => 0
  | f + 1, n => if n < 10 then 1 else decLenAux f (n / 10) + 1

/-- Number of decimal digits of `n`. -/
def decLen (n : Nat) : Nat := decLenAux (n + 1) n

/-- Minimal decimal representation of `n` (`"0"` for 0, no leading zero). -/
def decDigits (n : Nat) : List Char := pctD (decLen n) n

/-- Digits of `n` in base `b`, left-padded to `w` positions, with digit
characters drawn by `dc`. -/
def basePad (dc : Nat → Char) (b : Nat) : Nat → Nat → List Char
  | 0, _ => []
  | w + 1, n => basePad dc b w (n / b) ++ [dc (n % b)]

/-- Fuel-driven count of base-`b` digits of `n`. -/
def baseLenAux (b : Nat) : Nat → Nat → Nat
  | 0, _ => 0
  | f + 1, n => if n < b then 1 else baseLenAux b f (n / b) + 1

/-- Number of base-`b` digits of `n`. -/
def baseLen (b n : Nat) : Nat := baseLenAux b (n + 1) n

/-- Minimal base-`b` representation of `n`. -/
def baseDigits (dc : Nat → Char) (b n : Nat) : List Char :=
  basePad dc b (baseLen b n) n

/-- Uppercase hexadecimal digit characters, for the `X` conversion. -/
def digitCharU (n : Nat) : Char :=
  if n = 10 then 'A' else if n = 11 then 'B' else if n = 12 then 'C'
  else if n = 13 then 'D' else if n = 14 then 'E' else if n = 15 then 'F'
  else Nat.digitChar n

/-- Lay out a numeric conversion of a nonnegative integer:
`sign ++ alternate-form marker ++ zero fill ++ digits`.  The digits are
first zero-extended to the precision; `-` then left-justifies with spaces,
`0` (without `-`) zero-fills to the width between the marker and the
digits, and otherwise spaces pad on the left.  Checked against CPython:
`"%+06.3d" % 7 = "+00007"`, `"%#05x" % 255 = "0x0ff"`, `"%0 5d" % 3 =
" 0003"`, `"%.0d" % 0 = "0"`. -/
def fmtNumeric (mk body flags : List Char) (w : Nat) (p : Option Nat) :
    List Char :=
  let body2 := match p with
    | some k => List.replicate (k - body.length) '0' ++ body
    | none => body
  let sign : List Char :=
    if '+' ∈ flags then ['+'] else if ' ' ∈ flags then [' '] else []
  let core := sign ++ mk ++ body2
  if '-' ∈ flags then core ++ List.replicate (w - core.length) ' '
  else if '0' ∈ flags then
    sign ++ mk ++ List.replicate (w - core.length) '0' ++ body2
  else List.replicate (w - core.length) ' ' ++ core

/-- Lay out an `s`/`r`/`a`/`c` conversion: the precision truncates, the
width pads with spaces (`0` is ignored here: `"%05s" % 3 = "    3"`), `-`
left-justifies. -/
def fmtStr (body flags : List Char) (w : Nat) (p : Option Nat) : List Char :=
  let body2 := match p with | some k => body.take k | none => body
  if '-' ∈ flags then body2 ++ List.replicate (w - body2.length) ' '
  else List.replicate (w - body2.length) ' ' ++ body2

/-- Output of one argument-consuming conversion applied to the nonnegative
integer `j`.  `str`, `repr` and `ascii` of an `int` are its decimal digits;
`c` demands a code point below `0x110000` (`OverflowError` beyond), with the
surrogate range and the float conversions left outside the model as
documented above; every other conversion character is a `ValueError`.  All
failures are `none`. -/
def convOut (ty : Char) (flags : List Char) (w : Nat) (p : Option Nat)
    (j : Nat) : Option (List Char) :=
  if ty = 'd' ∨ ty = 'i' ∨ ty = 'u' then
    some (fmtNumeric [] (decDigits j) flags w p)
  else if ty = 'x' then
    some (fmtNumeric (if '#' ∈ flags then ['0', 'x'] else [])
      (baseDigits Nat.digitChar 16 j) flags w p)
  else if ty = 'X' then
    some (fmtNumeric (if '#' ∈ flags then ['0', 'X'] else [])
      (baseDigits digitCharU 16 j) flags w p)
  else if ty = 'o' then
    some (fmtNumeric (if '#' ∈ flags then ['0', 'o'] else [])
      (baseDigits Nat.digitChar 8 j) flags w p)
  else if ty = 's' ∨ ty = 'r' ∨ ty = 'a' then
    some (fmtStr (decDigits j) flags w p)
  else if ty = 'c' then
    if j < 55296 ∨ (57344 ≤ j ∧ j < 1114112) then
      some (fmtStr [Char.ofNat j] flags w none)
    else none
  else none

/-- The tail of a conversion specifier: skip at most one length modifier
and read the conversion character (`none` when the format is exhausted:
`ValueError: incomplete format`). -/
def finishSpec (flags : List Char) (w : Nat) (p : Option Nat) :
    List Char → Option (List Char × Nat × Option Nat × Char × List Char)
  | [] => none
  | c :: r =>
    if isLenMod c then
      match r with
      | [] => none
      | c2 :: r2 => some (flags, w, p, c2, r2)
    else some (flags, w, p, c, r)

/-- Parse one conversion specifier after a non-doubled `%`: flags, then a
width, then `.precision`, then a length modifier, then the conversion
character.  A `*` width or precision would fetch a second argument, which
the single integer argument cannot supply (`TypeError`), so it is `none`;
a `(` mapping key likewise fails on an integer argument and surfaces below
as an unsupported conversion character, equally `none`. -/
def parseSpec (l : List Char) :
    Option (List Char × Nat × Option Nat × Char × List Char) :=
  let flags := l.takeWhile isFlag
  let r1 := l.dropWhile isFlag
  if r1.head? = some '*' then none
  else
    let w := digitsVal (r1.takeWhile isDig)
    let r2 := r1.dropWhile isDig
    if r2.head? = some '.' then
      let r3 := r2.tail
      if r3.head? = some '*' then none
      else finishSpec flags w (some (digitsVal (r3.takeWhile isDig)))
        (r3.dropWhile isDig)
    else finishSpec flags w none r2

/-- CPython's `%`-formatting scanner with a single nonnegative integer
argument `j` and fuel (each step consumes at least one format character, so
`length + 1` fuel suffices): ordinary characters are copied, an immediate
`%%` emits `%` without touching the argument, any other `%` parses a
specifier and fails if the argument was already consumed
(`TypeError: not enough arguments for format string`); at the end the
argument must have been consumed
(`TypeError: not all arguments converted during string formatting`). -/
def pyModAux (j : Nat) : Nat → List Char → Bool → Option (List Char)
  | 0, _, _ => none
  | _ + 1, [], used => if used then some [] else none
  | f + 1, c :: rest, used =>
    if c = '%' then
      match rest with
      | [] => none
      | c2 :: rest2 =>
        if c2 = '%' then
          (pyModAux j f rest2 used).map (fun out => '%' :: out)
        else
          match parseSpec rest with
          | none => none
          | some (flags, w, p, ty, rest3) =>
            if used then none
            else
              match convOut ty flags w p j with
              | none => none
              | some piece =>
                (pyModAux j f rest3 true).map (fun out => piece ++ out)
    else (pyModAux j f rest used).map (fun out => c :: out)

/-- Python's `fmt % j` for a single nonnegative integer argument `j`;
`none` models an exception.  (The program only ever formats `len_digits`
and the loop counter, both nonnegative integers, so nothing a negative or
non-integer argument could do is needed.) -/
def pyMod (fmt : List Char) (j : Nat) : Option (List Char) :=
  pyModAux j (fmt.length + 1) fmt false

/-- The materializer's loop: render `template_str % j` for each candidate
index (an exception aborts the whole call) and append the joined path
whenever the rendered name occurs in the directory listing. -/
def collectMatches (listing : List String) (dir : String) (tstr : List Char) :
    List Nat → Option (List String)
  | [] => some []
  | j :: js =>
    match pyMod tstr j with
    | none => none
    | some nm =>
      match collectMatches listing dir tstr js with
      | none => none
      | some rest =>
        some (if String.mk nm ∈ listing
              then joinPath dir (String.mk nm) :: rest else rest)

/-- `find_matching_images`, with the single `os.listdir` snapshot passed in
as `listing`.  The template string is `pfx + "%%0%dd" % len_digits + sfx`
(`pfx`/`sfx` the before-first/after-last `'#'` parts of the template) and
every candidate name is rendered by the `%`-formatting model `pyMod`; a
formatting exception — possible when the filename carries `'%'` characters
into the template — aborts the call (`none`). -/
def find_matching_images (listing : List String) (image_name : String) :
    Option (List String) :=
  match template_regex (splitPath image_name).2 with
  | (some t, _) =>
    match pyMod "%%0%dd".data (hashCount t) with
    | none => none
    | some mid =>
      collectMatches listing (dirOf image_name)
        (splitPfx t ++ mid ++ splitSfx t) (List.range (10 ^ hashCount t))
  | (none, _) => some [image_name]

/-! ## Character-class facts -/

theorem ne_of_isDig {c x : Char} (h : isDig c = true) (hx : isDig x = false) :
    c ≠ x := by
  intro e; subst e; rw [h] at hx; exact Bool.noConfusion hx

theorem isDig_dot : isDig '.' = false := by decide

theorem isDig_us : isDig '_' = false := by decide

theorem isDig_nl : isDig '\n' = false := by decide

theorem isDig_hash : isDig '#' = false := by decide

theorem isDig_slash : isDig '/' = false := by decide

theorem isDig_d : isDig 'd' = false := by decide

theorem notNL_of_isDig {c : Char} (h : isDig c = true) : notNL c = true := by
  simp only [notNL, decide_eq_true_iff]
  exact ne_of_isDig h isDig_nl

theorem all_notNL_of_all_isDig {l : List Char} (h : l.all isDig = true) :
    l.all notNL = true := by
  simp only [List.all_eq_true] at h ⊢
  exact fun c hc => notNL_of_isDig (h c hc)

/-! ## `takeWhile`/`drop` helpers -/

theorem drop_tw_length (p : Char → Bool) (l : List Char) :
    l.drop (l.takeWhile p).length = l.dropWhile p := by
  induction l with
  | nil => rfl
  | cons c l ih =>
    by_cases h : p c
    · simp [List.takeWhile_cons_of_pos h, List.dropWhile_cons_of_pos h, ih]
    · simp [List.takeWhile_cons_of_neg h, List.dropWhile_cons_of_neg h]

theorem tw_append_nil {p : Char → Bool} {ys : List Char} (hys : ys.takeWhile p = [])
    (xs : List Char) : (xs ++ ys).takeWhile p = xs.takeWhile p := by
  rw [List.takeWhile_append, hys]
  split
  · next h =>
    rw [List.append_nil]
    exact ((List.takeWhile_prefix p).eq_of_length h).symm
  · rfl

theorem tw_nil_of_head {p : Char → Bool} {t : List Char}
    (ht : t = [] ∨ ∃ c t', t = c :: t' ∧ p c = false) : t.takeWhile p = [] := by
  rcases ht with rfl | ⟨c, t', rfl, hc⟩
  · rfl
  · exact List.takeWhile_cons_of_neg (Bool.eq_false_iff.mp hc)

theorem drop_append_le {n : Nat} {u : List Char} (v : List Char) (h : n ≤ u.length) :
    (u ++ v).drop n = u.drop n ++ v := by
  induction u generalizing n with
  | nil =>
    simp only [List.length_nil, Nat.le_zero] at h
    subst h; simp
  | cons c u ih =>
    cases n with
    | zero => simp
    | succ n => simpa using ih (Nat.le_of_succ_le_succ h)

theorem take_append_le {n : Nat} {u : List Char} (v : List Char) (h : n ≤ u.length) :
    (u ++ v).take n = u.take n := by
  induction u generalizing n with
  | nil =>
    simp only [List.length_nil, Nat.le_zero] at h
    subst h; simp
  | cons c u ih =>
    cases n with
    | zero => simp
    | succ n => simpa using ih (Nat.le_of_succ_le_succ h)

theorem drop_append_cons (A : List Char) (c : Char) (X : List Char) (m : Nat) :
    (A ++ c :: X).drop (A.length + 1 + m) = X.drop m := by
  have h1 : A ++ c :: X = (A ++ [c]) ++ X := by simp
  have h2 : (A ++ [c]).length = A.length + 1 := by simp
  rw [h1, ← List.drop_drop, List.drop_left' h2]

theorem take_append_cons (A : List Char) (c : Char) (X : List Char) (m : Nat) :
    (A ++ c :: X).take (A.length + 1 + m) = A ++ c :: X.take m := by
  have h1 : A ++ c :: X = (A ++ [c]) ++ X := by simp
  have h2 : (A ++ [c]).length = A.length + 1 := by simp
  rw [h1, ← h2, List.take_append]
  simp

/-! ## The greedy-offset characterization of `lastPos` -/

theorem posOk_zero (p : List Char → Bool) (r : List Char) : posOk p r 0 = p r := by
  simp [posOk]

theorem posOk_succ (p : List Char → Bool) (c : Char) (r : List Char) (i : Nat) :
    posOk p (c :: r) (i + 1) = (notNL c && posOk p r i) := by
  simp [posOk, List.take_succ_cons, notNL, Bool.and_assoc]

theorem lastPos_spec (p : List Char → Bool) (hp : p [] = false) (r : List Char) :
    (lastPos p r = none → ∀ i, posOk p r i = false) ∧
    (∀ i, lastPos p r = some i →
      posOk p r i = true ∧ ∀ j, i < j → posOk p r j = false) := by
  induction r with
  | nil =>
    refine ⟨fun _ i => ?_, fun i h => by simp [lastPos] at h⟩
    simp [posOk, hp]
  | cons c r ih =>
    by_cases hc : c = '\n'
    · subst hc
      have hnl : notNL '\n' = false := by decide
      by_cases hp0 : p ('\n' :: r) = true
      · constructor
        · intro h
          simp [lastPos, hp0] at h
        · intro i h
          simp only [lastPos, if_pos rfl, hp0, if_true] at h
          obtain rfl : 0 = i := Option.some.inj h
          refine ⟨by rwa [posOk_zero], fun j hj => ?_⟩
          obtain ⟨j', rfl⟩ := Nat.exists_eq_add_of_lt hj
          rw [Nat.zero_add, posOk_succ, hnl, Bool.false_and]
      · constructor
        · intro _ i
          cases i with
          | zero => rw [posOk_zero]; exact Bool.eq_false_iff.mpr hp0
          | succ i => rw [posOk_succ, hnl, Bool.false_and]
        · intro i h
          simp [lastPos, hp0] at h
    · have hnl : notNL c = true := by simp [notNL, hc]
      cases haux : lastPos p r with
      | none =>
        have hall := ih.1 haux
        by_cases hp0 : p (c :: r) = true
        · constructor
          · intro h
            simp [lastPos, hc, haux, hp0] at h
          · intro i h
            simp only [lastPos, if_neg hc, haux, hp0, if_true] at h
            obtain rfl : 0 = i := Option.some.inj h
            refine ⟨by rwa [posOk_zero], fun j hj => ?_⟩
            obtain ⟨j', rfl⟩ := Nat.exists_eq_add_of_lt hj
            rw [Nat.zero_add, posOk_succ, hall, Bool.and_false]
        · constructor
          · intro _ i
            cases i with
            | zero => rw [posOk_zero]; exact Bool.eq_false_iff.mpr hp0
            | succ i => rw [posOk_succ, hall, Bool.and_false]
          · intro i h
            simp [lastPos, hc, haux, hp0] at h
      | some k =>
        obtain ⟨hk, hmax⟩ := ih.2 k haux
        constructor
        · intro h
          simp [lastPos, hc, haux] at h
        · intro i h
          simp only [lastPos, if_neg hc, haux] at h
          obtain rfl : k + 1 = i := Option.some.inj h
          refine ⟨by rw [posOk_succ, hnl, hk, Bool.and_self], fun j hj => ?_⟩
          cases j with
          | zero => exact absurd hj (by omega)
          | succ j => rw [posOk_succ, hmax j (by omega), Bool.and_false]

theorem lastPos_none {p : List Char → Bool} (hp : p [] = false) {r : List Char}
    (h : lastPos p r = none) : ∀ i, posOk p r i = false :=
  (lastPos_spec p hp r).1 h

theorem lastPos_some {p : List Char → Bool} (hp : p [] = false) {r : List Char}
    {i : Nat} (h : lastPos p r = some i) :
    posOk p r i = true ∧ ∀ j, i < j → posOk p r j = false :=
  (lastPos_spec p hp r).2 i h

theorem lastPos_intro {p : List Char → Bool} (hp : p [] = false) {r : List Char}
    {i : Nat} (h1 : posOk p r i = true) (h2 : ∀ j, i < j → posOk p r j = false) :
    lastPos p r = some i := by
  cases haux : lastPos p r with
  | none => exact absurd h1 (by simp [lastPos_none hp haux i])
  | some k =>
    obtain ⟨hk, hmax⟩ := lastPos_some hp haux
    rcases Nat.lt_trichotomy i k with h | h | h
    · exact absurd hk (by simp [h2 k h])
    · rw [h]
    · exact absurd h1 (by simp [hmax i h])

/-! ## Facts about the local conditions -/

theorem localP1_nil : localP1 [] = false := rfl

theorem localP2_nil : localP2 [] = false := rfl

theorem localP1_cons (c : Char) (rest : List Char) :
    localP1 (c :: rest) =
      (decide (c = '.') &&
        (decide (0 < (rest.takeWhile isDig).length) &&
          decide ((rest.drop (rest.takeWhile isDig).length).head? = some '_'))) := rfl

theorem localP2_cons (c : Char) (rest : List Char) :
    localP2 (c :: rest) =
      (decide (c = '.') && decide (0 < (rest.takeWhile isDig).length)) := rfl

theorem localP1_not_dot {l : List Char} (h : l.head? ≠ some '.') :
    localP1 l = false := by
  cases l with
  | nil => rfl
  | cons c rest =>
    simp only [List.head?_cons, ne_eq, Option.some.injEq] at h
    simp [localP1_cons, h]

theorem localP2_not_dot {l : List Char} (h : l.head? ≠ some '.') :
    localP2 l = false := by
  cases l with
  | nil => rfl
  | cons c rest =>
    simp only [List.head?_cons, ne_eq, Option.some.injEq] at h
    simp [localP2_cons, h]

theorem head_ne_dot_of_isDig {l : List Char} {c : Char}
    (hc : l.head? = some c) (h : isDig c = true) : l.head? ≠ some '.' := by
  rw [hc]
  intro e
  exact ne_of_isDig h isDig_dot (Option.some.inj e)

/-- A terminal segment that is empty or starts with a newline is invisible to
the local condition of pattern 1. -/
theorem localP1_append_nl {t : List Char} (ht : t = [] ∨ t.head? = some '\n') :
    ∀ x : List Char, localP1 (x ++ t) = localP1 x := by
  have htw : t.takeWhile isDig = [] := by
    apply tw_nil_of_head
    rcases ht with rfl | hh
    · exact Or.inl rfl
    · cases t with
      | nil => exact Or.inl rfl
      | cons c t' =>
        simp only [List.head?_cons, Option.some.injEq] at hh
        exact Or.inr ⟨c, t', rfl, by rw [hh]; exact isDig_nl⟩
  intro x
  cases x with
  | nil =>
    rcases ht with rfl | hh
    · rfl
    · cases t with
      | nil => rfl
      | cons c t' =>
        simp only [List.head?_cons, Option.some.injEq] at hh
        subst hh
        simp [List.nil_append, localP1_cons, localP1_nil]
  | cons c x' =>
    rw [List.cons_append, localP1_cons, localP1_cons, tw_append_nil htw x']
    have hLle : (x'.takeWhile isDig).length ≤ x'.length :=
      (List.takeWhile_prefix isDig).length_le
    have h3 : decide (((x' ++ t).drop (x'.takeWhile isDig).length).head? = some '_') =
        decide ((x'.drop (x'.takeWhile isDig).length).head? = some '_') := by
      rcases Nat.eq_or_lt_of_le hLle with heq | hlt
      · rw [List.drop_left' heq.symm,
          show x'.drop (x'.takeWhile isDig).length = [] from
            List.drop_eq_nil_iff.mpr (Nat.le_of_eq heq.symm)]
        rcases ht with rfl | hh
        · rfl
        · cases t with
          | nil => rfl
          | cons c' t' =>
            simp only [List.head?_cons, Option.some.injEq] at hh
            subst hh
            simp
      · rw [drop_append_le t (Nat.le_of_lt hlt)]
        have hne : x'.drop (x'.takeWhile isDig).length ≠ [] := by
          rw [ne_eq, List.drop_eq_nil_iff]; omega
        obtain ⟨d, rest', hdr⟩ := List.exists_cons_of_ne_nil hne
        rw [hdr, List.cons_append]
        simp
    rw [h3]

/-- Same for pattern 2. -/
theorem localP2_append_nl {t : List Char} (ht : t = [] ∨ t.head? = some '\n') :
    ∀ x : List Char, localP2 (x ++ t) = localP2 x := by
  have htw : t.takeWhile isDig = [] := by
    apply tw_nil_of_head
    rcases ht with rfl | hh
    · exact Or.inl rfl
    · cases t with
      | nil => exact Or.inl rfl
      | cons c t' =>
        simp only [List.head?_cons, Option.some.injEq] at hh
        exact Or.inr ⟨c, t', rfl, by rw [hh]; exact isDig_nl⟩
  intro x
  cases x with
  | nil =>
    rcases ht with rfl | hh
    · rfl
    · cases t with
      | nil => rfl
      | cons c t' =>
        simp only [List.head?_cons, Option.some.injEq] at hh
        subst hh
        simp [List.nil_append, localP2_cons, localP2_nil]
  | cons c x' =>
    rw [List.cons_append, localP2_cons, localP2_cons, tw_append_nil htw x']

/-- The local condition of pattern 1 at a position strictly inside a shared
prefix that is followed by a `.` does not depend on what comes after that `.`. -/
theorem localP1_prefix_congr {P : List Char} (hP : P ≠ []) (u v : List Char) :
    localP1 (P ++ '.' :: u) = localP1 (P ++ '.' :: v) := by
  obtain ⟨c, Q, rfl⟩ := List.exists_cons_of_ne_nil hP
  rw [List.cons_append, List.cons_append, localP1_cons, localP1_cons]
  have htw : ∀ w : List Char, (Q ++ '.' :: w).takeWhile isDig = Q.takeWhile isDig :=
    fun w => tw_append_nil (tw_nil_of_head (Or.inr ⟨'.', w, rfl, isDig_dot⟩)) Q
  rw [htw u, htw v]
  have hLle : (Q.takeWhile isDig).length ≤ Q.length :=
    (List.takeWhile_prefix isDig).length_le
  have h3 : decide (((Q ++ '.' :: u).drop (Q.takeWhile isDig).length).head? = some '_') =
      decide (((Q ++ '.' :: v).drop (Q.takeWhile isDig).length).head? = some '_') := by
    rcases Nat.eq_or_lt_of_le hLle with heq | hlt
    · rw [List.drop_left' heq.symm, List.drop_left' heq.symm]
      simp
    · rw [drop_append_le _ (Nat.le_of_lt hlt), drop_append_le _ (Nat.le_of_lt hlt)]
      have hne : Q.drop (Q.takeWhile isDig).length ≠ [] := by
        rw [ne_eq, List.drop_eq_nil_iff]; omega
      obtain ⟨d, rest', hdr⟩ := List.exists_cons_of_ne_nil hne
      rw [hdr, List.cons_append, List.cons_append]
      simp
  rw [h3]

theorem localP2_prefix_congr {P : List Char} (hP : P ≠ []) (u v : List Char) :
    localP2 (P ++ '.' :: u) = localP2 (P ++ '.' :: v) := by
  obtain ⟨c, Q, rfl⟩ := List.exists_cons_of_ne_nil hP
  rw [List.cons_append, List.cons_append, localP2_cons, localP2_cons]
  have htw : ∀ w : List Char, (Q ++ '.' :: w).takeWhile isDig = Q.takeWhile isDig :=
    fun w => tw_append_nil (tw_nil_of_head (Or.inr ⟨'.', w, rfl, isDig_dot⟩)) Q
  rw [htw u, htw v]

/-! ## Characterizations of the three pattern matchers -/

theorem matchP0_none_iff {r : List Char} :
    matchP0 r = none ↔
      ¬(0 < (r.takeWhile isDig).length ∧
        (r.drop (r.takeWhile isDig).length).head? = some '.') := by
  simp only [matchP0]
  split
  · next hcond => exact iff_of_false (by simp) (not_not_intro hcond)
  · next hcond => exact iff_of_true rfl hcond

theorem matchP0_elim {r g0 g1 : List Char} (h : matchP0 r = some (g0, g1)) :
    0 < (r.takeWhile isDig).length ∧
    (r.drop (r.takeWhile isDig).length).head? = some '.' ∧
    g0 = r.takeWhile isDig ∧
    g1 = (r.drop ((r.takeWhile isDig).length + 1)).takeWhile notNL := by
  simp only [matchP0] at h
  split at h
  · next hcond =>
    injection h with h'
    injection h' with ha hb
    exact ⟨hcond.1, hcond.2, ha.symm, hb.symm⟩
  · exact absurd h (by simp)

/-- The condition of pattern 0 only looks at the segment before the first
`.`-after-digits, so the rest of the string can be replaced freely. -/
theorem matchP0_none_congr {A u : List Char} (v : List Char)
    (h : matchP0 (A ++ '.' :: u) = none) : matchP0 (A ++ '.' :: v) = none := by
  rw [matchP0_none_iff] at h ⊢
  intro hcv
  apply h
  have htw : ∀ w : List Char, (A ++ '.' :: w).takeWhile isDig = A.takeWhile isDig :=
    fun w => tw_append_nil (tw_nil_of_head (Or.inr ⟨'.', w, rfl, isDig_dot⟩)) A
  have hLle : (A.takeWhile isDig).length ≤ A.length :=
    (List.takeWhile_prefix isDig).length_le
  rw [htw] at hcv ⊢
  refine ⟨hcv.1, ?_⟩
  have h2 := hcv.2
  rcases Nat.eq_or_lt_of_le hLle with heq | hlt
  · rw [List.drop_left' heq.symm]
    rfl
  · rw [drop_append_le _ (Nat.le_of_lt hlt)] at h2 ⊢
    have hne : A.drop (A.takeWhile isDig).length ≠ [] := by
      rw [ne_eq, List.drop_eq_nil_iff]; omega
    obtain ⟨d, rest', hdr⟩ := List.exists_cons_of_ne_nil hne
    rw [hdr, List.cons_append] at h2 ⊢
    exact h2

/-- Computing pattern 0 on a string known to start with digits then a dot. -/
theorem matchP0_build {D : List Char} (x : List Char) (hD : D.all isDig = true)
    (h0 : 0 < D.length) :
    matchP0 (D ++ '.' :: x) = some (D, x.takeWhile notNL) := by
  have hdotn : ('.' :: x).takeWhile isDig = [] :=
    List.takeWhile_cons_of_neg (by decide)
  have htw : (D ++ '.' :: x).takeWhile isDig = D := by
    rw [List.takeWhile_append_of_pos (by simpa [List.all_eq_true] using hD), hdotn,
      List.append_nil]
  have hdrop : (D ++ '.' :: x).drop D.length = '.' :: x := List.drop_left' rfl
  have hdrop1 : (D ++ '.' :: x).drop (D.length + 1) = x := by
    rw [← List.tail_drop, hdrop]
    rfl
  simp only [matchP0, htw, hdrop, hdrop1]
  rw [if_pos ⟨h0, rfl⟩]

theorem matchP1_none_iff {r : List Char} :
    matchP1 r = none ↔ ∀ i, posOk localP1 r i = false := by
  unfold matchP1
  cases hl : lastPos localP1 r with
  | none => exact iff_of_true rfl (lastPos_none rfl hl)
  | some k =>
    constructor
    · intro h; exact absurd h (by simp)
    · intro hall
      have := (lastPos_some rfl hl).1
      rw [hall k] at this
      exact Bool.noConfusion this

theorem matchP1_intro {r : List Char} {i : Nat}
    (h1 : posOk localP1 r i = true) (h2 : ∀ j, i < j → posOk localP1 r j = false) :
    matchP1 r = some (p1Extract r i) := by
  unfold matchP1
  rw [lastPos_intro rfl h1 h2, Option.map_some']

theorem matchP1_elim {r : List Char} {x : List Char × List Char × List Char}
    (h : matchP1 r = some x) :
    ∃ i, posOk localP1 r i = true ∧ (∀ j, i < j → posOk localP1 r j = false) ∧
      x = p1Extract r i := by
  unfold matchP1 at h
  cases hl : lastPos localP1 r with
  | none => rw [hl] at h; exact absurd h (by simp)
  | some i =>
    rw [hl, Option.map_some'] at h
    obtain ⟨h1, h2⟩ := lastPos_some rfl hl
    exact ⟨i, h1, h2, (Option.some.inj h).symm⟩

theorem matchP2_none_iff {r : List Char} :
    matchP2 r = none ↔ ∀ i, posOk localP2 r i = false := by
  unfold matchP2
  cases hl : lastPos localP2 r with
  | none => exact iff_of_true rfl (lastPos_none rfl hl)
  | some k =>
    constructor
    · intro h; exact absurd h (by simp)
    · intro hall
      have := (lastPos_some rfl hl).1
      rw [hall k] at this
      exact Bool.noConfusion this

theorem matchP2_intro {r : List Char} {i : Nat}
    (h1 : posOk localP2 r i = true) (h2 : ∀ j, i < j → posOk localP2 r j = false) :
    matchP2 r = some (p2Extract r i) := by
  unfold matchP2
  rw [lastPos_intro rfl h1 h2, Option.map_some']

theorem matchP2_elim {r : List Char} {x : List Char × List Char × List Char}
    (h : matchP2 r = some x) :
    ∃ i, posOk localP2 r i = true ∧ (∀ j, i < j → posOk localP2 r j = false) ∧
      x = p2Extract r i := by
  unfold matchP2 at h
  cases hl : lastPos localP2 r with
  | none => rw [hl] at h; exact absurd h (by simp)
  | some i =>
    rw [hl, Option.map_some'] at h
    obtain ⟨h1, h2⟩ := lastPos_some rfl hl
    exact ⟨i, h1, h2, (Option.some.inj h).symm⟩

/-! ## Structural descriptions of successful matches -/

theorem band_elim {a b : Bool} (h : (a && b) = true) : a = true ∧ b = true := by
  simpa using h

/-- A pattern-1 match decomposes the reversed filename as
`A ++ '.' :: (D ++ '_' :: (B ++ t))` where `t` is the part cut off by a
newline, and the match offset `A.length` is the greatest offset at which the
pattern could match. -/
theorem matchP1_shape {r A D B : List Char} (h : matchP1 r = some (A, D, B)) :
    ∃ t, r = A ++ '.' :: (D ++ '_' :: (B ++ t)) ∧
      A.all notNL = true ∧
      0 < D.length ∧ D.all isDig = true ∧
      B.all notNL = true ∧ (t = [] ∨ t.head? = some '\n') ∧
      (∀ j, A.length < j → posOk localP1 r j = false) := by
  obtain ⟨i, hpos, hmax, hx⟩ := matchP1_elim h
  have hb := hpos
  unfold posOk at hb
  obtain ⟨hA, hloc⟩ := band_elim hb
  cases hdr : r.drop i with
  | nil => rw [hdr] at hloc; exact absurd hloc (by simp [localP1_nil])
  | cons c rest =>
    rw [hdr, localP1_cons] at hloc
    obtain ⟨hcdot, hloc2⟩ := band_elim hloc
    obtain ⟨hrun, hus⟩ := band_elim hloc2
    have hcdot' : c = '.' := of_decide_eq_true hcdot
    have hrun' : 0 < (rest.takeWhile isDig).length := of_decide_eq_true hrun
    have hus' : (rest.drop (rest.takeWhile isDig).length).head? = some '_' :=
      of_decide_eq_true hus
    subst hcdot'
    have hilen : i < r.length := by
      by_contra hge
      rw [List.drop_eq_nil_iff.mpr (by omega)] at hdr
      exact List.noConfusion hdr
    have hrest : r.drop (i + 1) = rest := by
      rw [← List.tail_drop, hdr]
      rfl
    have hx' : (A, D, B) = (r.take i, rest.takeWhile isDig,
        (rest.drop ((rest.takeWhile isDig).length + 1)).takeWhile notNL) := by
      rw [hx]
      unfold p1Extract
      rw [hrest]
    obtain ⟨hA', hD', hB'⟩ : A = r.take i ∧ D = rest.takeWhile isDig ∧
        B = (rest.drop ((rest.takeWhile isDig).length + 1)).takeWhile notNL := by
      injection hx' with h1 h2
      injection h2 with h2 h3
      exact ⟨h1, h2, h3⟩
    have hdw := drop_tw_length isDig rest
    obtain ⟨b, hbw⟩ : ∃ b, rest.dropWhile isDig = '_' :: b := by
      cases hd2 : rest.drop (rest.takeWhile isDig).length with
      | nil => rw [hd2] at hus'; exact absurd hus' (by simp)
      | cons c2 b =>
        rw [hd2] at hus'
        obtain rfl : c2 = '_' := by simpa using hus'
        exact ⟨b, by rw [← hdw, hd2]⟩
    have hbdrop : rest.drop ((rest.takeWhile isDig).length + 1) = b := by
      rw [← List.tail_drop, hdw, hbw]
      rfl
    have hAlen : A.length = i := by
      rw [hA', List.length_take]
      omega
    refine ⟨b.dropWhile notNL, ?_, ?_, ?_, ?_, ?_, ?_, ?_⟩
    · have h1 : rest = (rest.takeWhile isDig) ++ '_' :: b := by
        conv_lhs => rw [← List.takeWhile_append_dropWhile isDig rest]
        rw [hbw]
      have h2 : b = b.takeWhile notNL ++ b.dropWhile notNL :=
        (List.takeWhile_append_dropWhile notNL b).symm
      calc r = r.take i ++ r.drop i := (List.take_append_drop i r).symm
        _ = A ++ '.' :: rest := by rw [hdr, hA']
        _ = A ++ '.' :: (D ++ '_' :: (B ++ b.dropWhile notNL)) := by
            rw [h1, hD', hB', hbdrop, ← h2]
    · rw [hA']; exact hA
    · rw [hD']; exact hrun'
    · rw [hD']; exact List.all_takeWhile
    · rw [hB', hbdrop]; exact List.all_takeWhile
    · have hhd := List.head?_dropWhile_not notNL b
      cases ht : (b.dropWhile notNL).head? with
      | none => exact Or.inl (List.head?_eq_none_iff.mp ht)
      | some x =>
        rw [ht] at hhd
        have hhd' : notNL x = false := hhd
        have hx2 : x = '\n' := by
          have h2 := hhd'
          simp only [notNL, decide_eq_false_iff_not, not_not] at h2
          exact h2
        exact Or.inr (by rw [hx2])
    · rw [hAlen]; exact hmax

/-- A pattern-2 match decomposes the reversed filename as
`A ++ '.' :: (D ++ (B ++ t))`; the character following the digit run (if any)
is not a digit, and the match offset is maximal. -/
theorem matchP2_shape {r A D B : List Char} (h : matchP2 r = some (A, D, B)) :
    ∃ t, r = A ++ '.' :: (D ++ (B ++ t)) ∧
      A.all notNL = true ∧
      0 < D.length ∧ D.all isDig = true ∧
      B.all notNL = true ∧ (t = [] ∨ t.head? = some '\n') ∧
      (B ++ t).takeWhile isDig = [] ∧ B.takeWhile isDig = [] ∧
      (∀ j, A.length < j → posOk localP2 r j = false) := by
  obtain ⟨i, hpos, hmax, hx⟩ := matchP2_elim h
  have hb := hpos
  unfold posOk at hb
  obtain ⟨hA, hloc⟩ := band_elim hb
  cases hdr : r.drop i with
  | nil => rw [hdr] at hloc; exact absurd hloc (by simp [localP2_nil])
  | cons c rest =>
    rw [hdr, localP2_cons] at hloc
    obtain ⟨hcdot, hrun⟩ := band_elim hloc
    have hcdot' : c = '.' := of_decide_eq_true hcdot
    have hrun' : 0 < (rest.takeWhile isDig).length := of_decide_eq_true hrun
    subst hcdot'
    have hilen : i < r.length := by
      by_contra hge
      rw [List.drop_eq_nil_iff.mpr (by omega)] at hdr
      exact List.noConfusion hdr
    have hrest : r.drop (i + 1) = rest := by
      rw [← List.tail_drop, hdr]
      rfl
    have hx' : (A, D, B) = (r.take i, rest.takeWhile isDig,
        (rest.drop (rest.takeWhile isDig).length).takeWhile notNL) := by
      rw [hx]
      unfold p2Extract
      rw [hrest]
    obtain ⟨hA', hD', hB'⟩ : A = r.take i ∧ D = rest.takeWhile isDig ∧
        B = (rest.drop (rest.takeWhile isDig).length).takeWhile notNL := by
      injection hx' with h1 h2
      injection h2 with h2 h3
      exact ⟨h1, h2, h3⟩
    have hdw := drop_tw_length isDig rest
    have hAlen : A.length = i := by
      rw [hA', List.length_take]
      omega
    have hBt : B ++ (rest.dropWhile isDig).dropWhile notNL = rest.dropWhile isDig := by
      rw [hB', hdw]
      exact List.takeWhile_append_dropWhile notNL (rest.dropWhile isDig)
    have htwnil : (rest.dropWhile isDig).takeWhile isDig = [] := by
      apply tw_nil_of_head
      have hhd := List.head?_dropWhile_not isDig rest
      cases ht : (rest.dropWhile isDig).head? with
      | none => exact Or.inl (List.head?_eq_none_iff.mp ht)
      | some x =>
        rw [ht] at hhd
        cases hdd : rest.dropWhile isDig with
        | nil => exact Or.inl rfl
        | cons y ys =>
          rw [hdd] at ht
          have hyx : y = x := by simpa using ht
          have hhd' : isDig x = false := hhd
          exact Or.inr ⟨y, ys, rfl, by rw [hyx]; exact hhd'⟩
    refine ⟨(rest.dropWhile isDig).dropWhile notNL, ?_, ?_, ?_, ?_, ?_, ?_, ?_, ?_, ?_⟩
    · have h1 : rest = (rest.takeWhile isDig) ++ rest.dropWhile isDig :=
        (List.takeWhile_append_dropWhile isDig rest).symm
      calc r = r.take i ++ r.drop i := (List.take_append_drop i r).symm
        _ = A ++ '.' :: rest := by rw [hdr, hA']
        _ = A ++ '.' :: (D ++ (B ++ (rest.dropWhile isDig).dropWhile notNL)) := by
            rw [hBt, hD', ← h1]
    · rw [hA']; exact hA
    · rw [hD']; exact hrun'
    · rw [hD']; exact List.all_takeWhile
    · rw [hB']; exact List.all_takeWhile
    · have hhd := List.head?_dropWhile_not notNL (rest.dropWhile isDig)
      cases ht : ((rest.dropWhile isDig).dropWhile notNL).head? with
      | none => exact Or.inl (List.head?_eq_none_iff.mp ht)
      | some x =>
        rw [ht] at hhd
        have hhd' : notNL x = false := hhd
        have hx2 : x = '\n' := by
          have h2 := hhd'
          simp only [notNL, decide_eq_false_iff_not, not_not] at h2
          exact h2
        exact Or.inr (by rw [hx2])
    · rw [hBt]; exact htwnil
    · apply tw_nil_of_head
      cases hBc : B with
      | nil => exact Or.inl rfl
      | cons y ys =>
        have : (B ++ (rest.dropWhile isDig).dropWhile notNL).takeWhile isDig = [] := by
          rw [hBt]; exact htwnil
        rw [hBc, List.cons_append] at this
        by_cases hy : isDig y = true
        · rw [List.takeWhile_cons_of_pos hy] at this
          exact absurd this (by simp)
        · exact Or.inr ⟨y, ys, rfl, Bool.eq_false_iff.mpr hy⟩
    · rw [hAlen]; exact hmax

/-! ## Decimal rendering and `int()` -/

theorem digitChar_isDig {m : Nat} (h : m < 10) : isDig (Nat.digitChar m) = true := by
  interval_cases m <;> decide

theorem digitChar_val {m : Nat} (h : m < 10) : (Nat.digitChar m).toNat - 48 = m := by
  interval_cases m <;> decide

theorem pctD_length (w j : Nat) : (pctD w j).length = w := by
  induction w generalizing j with
  | zero => rfl
  | succ w ih => simp [pctD, ih]

theorem pctD_all_isDig (w j : Nat) : (pctD w j).all isDig = true := by
  induction w generalizing j with
  | zero => rfl
  | succ w ih =>
    have hd : isDig (Nat.digitChar (j % 10)) = true :=
      digitChar_isDig (by omega : j % 10 < 10)
    simp [pctD, List.all_append, ih, hd]

theorem digitsVal_append_last (xs : List Char) (c : Char) :
    digitsVal (xs ++ [c]) = 10 * digitsVal xs + (c.toNat - 48) := by
  unfold digitsVal
  rw [List.foldl_append]
  rfl

theorem digitsVal_pctD {w j : Nat} (h : j < 10 ^ w) : digitsVal (pctD w j) = j := by
  induction w generalizing j with
  | zero =>
    have hj : j = 0 := by simpa using h
    subst hj
    rfl
  | succ w ih =>
    have hdiv : j / 10 < 10 ^ w := by
      rw [Nat.div_lt_iff_lt_mul (by omega)]
      calc j < 10 ^ (w + 1) := h
        _ = 10 ^ w * 10 := by rw [Nat.pow_succ]
    rw [show pctD (w + 1) j = pctD w (j / 10) ++ [Nat.digitChar (j % 10)] from rfl,
      digitsVal_append_last, ih hdiv, digitChar_val (by omega : j % 10 < 10)]
    omega

theorem digitsVal_lt_aux (ds : List Char) (hds : ds.all isDig = true) (a : Nat) :
    ds.foldl (fun a c => 10 * a + (c.toNat - 48)) a < (a + 1) * 10 ^ ds.length := by
  induction ds generalizing a with
  | nil => simp
  | cons c ds ih =>
    rw [List.all_cons] at hds
    obtain ⟨hc, hds'⟩ := band_elim hds
    have hcv : c.toNat - 48 ≤ 9 := by
      obtain ⟨h1, h2⟩ := band_elim hc
      have := of_decide_eq_true h2
      omega
    calc (c :: ds).foldl (fun a c => 10 * a + (c.toNat - 48)) a
        = ds.foldl (fun a c => 10 * a + (c.toNat - 48)) (10 * a + (c.toNat - 48)) := rfl
      _ < (10 * a + (c.toNat - 48) + 1) * 10 ^ ds.length := ih hds' _
      _ ≤ ((a + 1) * 10) * 10 ^ ds.length :=
          Nat.mul_le_mul_right _ (by omega)
      _ = (a + 1) * 10 ^ (ds.length + 1) := by
          rw [Nat.mul_assoc, ← Nat.pow_succ']
      _ = (a + 1) * 10 ^ (c :: ds).length := by rw [List.length_cons]

theorem digitsVal_lt {ds : List Char} (hds : ds.all isDig = true) :
    digitsVal ds < 10 ^ ds.length := by
  have := digitsVal_lt_aux ds hds 0
  simpa [digitsVal] using this

theorem pctD_inj {w j j' : Nat} (hj : j < 10 ^ w) (hj' : j' < 10 ^ w)
    (h : pctD w j = pctD w j') : j = j' := by
  rw [← digitsVal_pctD hj, ← digitsVal_pctD hj', h]

theorem pctD_ne_nil (w j : Nat) (hw : 0 < w) : pctD w j ≠ [] := by
  have hl := pctD_length w j
  intro h
  rw [h] at hl
  simp at hl
  omega

/-! ## Unfolding `inferT` and `template_regex` -/

theorem inferT_branch0 {f : String} {g0 g1 : List Char}
    (h : matchP0 f.data.reverse = some (g0, g1)) :
    inferT f = some (g1.reverse ++ ['.'], g0.reverse, []) := by
  simp only [inferT]
  rw [h]

theorem inferT_branch1 {f : String} {g0 g1 g2 : List Char}
    (h0 : matchP0 f.data.reverse = none)
    (h1 : matchP1 f.data.reverse = some (g0, g1, g2)) :
    inferT f = some (g2.reverse ++ ['_'], g1.reverse, '.' :: g0.reverse) := by
  simp only [inferT]
  rw [h0, h1]

theorem inferT_branch2 {f : String} {g0 g1 g2 : List Char}
    (h0 : matchP0 f.data.reverse = none) (h1 : matchP1 f.data.reverse = none)
    (h2 : matchP2 f.data.reverse = some (g0, g1, g2)) :
    inferT f = some (g2.reverse, g1.reverse, '.' :: g0.reverse) := by
  simp only [inferT]
  rw [h0, h1, h2]

theorem inferT_none {f : String}
    (h0 : matchP0 f.data.reverse = none) (h1 : matchP1 f.data.reverse = none)
    (h2 : matchP2 f.data.reverse = none) : inferT f = none := by
  simp only [inferT]
  rw [h0, h1, h2]

theorem inferT_elim {f : String} {pfx dgts ext : List Char}
    (h : inferT f = some (pfx, dgts, ext)) :
    (∃ g0 g1, matchP0 f.data.reverse = some (g0, g1) ∧
      pfx = g1.reverse ++ ['.'] ∧ dgts = g0.reverse ∧ ext = []) ∨
    (∃ g0 g1 g2, matchP0 f.data.reverse = none ∧
      matchP1 f.data.reverse = some (g0, g1, g2) ∧
      pfx = g2.reverse ++ ['_'] ∧ dgts = g1.reverse ∧ ext = '.' :: g0.reverse) ∨
    (∃ g0 g1 g2, matchP0 f.data.reverse = none ∧ matchP1 f.data.reverse = none ∧
      matchP2 f.data.reverse = some (g0, g1, g2) ∧
      pfx = g2.reverse ∧ dgts = g1.reverse ∧ ext = '.' :: g0.reverse) := by
  simp only [inferT] at h
  cases hm0 : matchP0 f.data.reverse with
  | some g =>
    obtain ⟨g0, g1⟩ := g
    rw [hm0] at h
    injection h with h'
    injection h' with ha h'
    injection h' with hb hc
    exact Or.inl ⟨g0, g1, rfl, ha.symm, hb.symm, hc.symm⟩
  | none =>
    rw [hm0] at h
    cases hm1 : matchP1 f.data.reverse with
    | some g =>
      obtain ⟨g0, g1, g2⟩ := g
      rw [hm1] at h
      injection h with h'
      injection h' with ha h'
      injection h' with hb hc
      exact Or.inr (Or.inl ⟨g0, g1, g2, rfl, rfl, ha.symm, hb.symm, hc.symm⟩)
    | none =>
      rw [hm1] at h
      cases hm2 : matchP2 f.data.reverse with
      | some g =>
        obtain ⟨g0, g1, g2⟩ := g
        rw [hm2] at h
        injection h with h'
        injection h' with ha h'
        injection h' with hb hc
        exact Or.inr (Or.inr ⟨g0, g1, g2, rfl, rfl, rfl, ha.symm, hb.symm, hc.symm⟩)
      | none =>
        rw [hm2] at h
        exact absurd h (by simp)

theorem template_regex_eq {f : String} {pfx dgts ext : List Char}
    (h : inferT f = some (pfx, dgts, ext)) :
    template_regex f =
      (some (String.mk (pfx ++ hashes dgts.length ++ ext)), digitsVal dgts) := by
  unfold template_regex
  rw [h]

theorem template_regex_none {f : String} (h : inferT f = none) :
    template_regex f = (none, 0) := by
  unfold template_regex
  rw [h]

/-- The digit group of any successful inference is a nonempty string of
digits. -/
theorem inferT_dgts {f : String} {pfx dgts ext : List Char}
    (h : inferT f = some (pfx, dgts, ext)) :
    0 < dgts.length ∧ dgts.all isDig = true := by
  rcases inferT_elim h with ⟨g0, g1, hm, _, hd, _⟩ |
    ⟨g0, g1, g2, _, hm, _, hd, _⟩ | ⟨g0, g1, g2, _, _, hm, _, hd, _⟩
  · obtain ⟨hpos, _, hg0, _⟩ := matchP0_elim hm
    subst hd
    subst hg0
    constructor
    · simpa using hpos
    · rw [List.all_reverse]
      exact List.all_takeWhile
  · obtain ⟨t, _, _, hpos, hdig, _⟩ := matchP1_shape hm
    subst hd
    constructor
    · simpa using hpos
    · rw [List.all_reverse]
      exact hdig
  · obtain ⟨t, _, _, hpos, hdig, _⟩ := matchP2_shape hm
    subst hd
    constructor
    · simpa using hpos
    · rw [List.all_reverse]
      exact hdig

/-! ## Transfer lemmas: re-matching a rendered filename -/

theorem notNL_dot : notNL '.' = true := by decide

theorem notNL_us : notNL '_' = true := by decide

theorem drop_append_plain (u X : List Char) (m : Nat) :
    (u ++ X).drop (u.length + m) = X.drop m := by
  rw [← List.drop_drop, List.drop_left]

theorem tw_of_all {p : Char → Bool} {l : List Char} (h : l.all p = true) :
    l.takeWhile p = l :=
  List.takeWhile_eq_self_iff.mpr (by simpa [List.all_eq_true] using h)

theorem all_take {p : Char → Bool} {l : List Char} (h : l.all p = true) (k : Nat) :
    (l.take k).all p = true := by
  rw [List.all_eq_true] at h ⊢
  exact fun c hc => h c (List.take_subset k l hc)

theorem localP1_drop_digit {X : List Char} {m : Nat} (hm : m < X.length)
    (hX : X.all isDig = true) (Y : List Char) :
    localP1 ((X ++ Y).drop m) = false := by
  rw [drop_append_le Y (Nat.le_of_lt hm)]
  have hne : X.drop m ≠ [] := by rw [ne_eq, List.drop_eq_nil_iff]; omega
  obtain ⟨c, rest', hcr⟩ := List.exists_cons_of_ne_nil hne
  have hcm : c ∈ X := List.drop_subset m X (by rw [hcr]; exact List.mem_cons_self c rest')
  have hcd : isDig c = true := List.all_eq_true.mp hX c hcm
  rw [hcr, List.cons_append]
  refine localP1_not_dot ?_
  simp only [List.head?_cons, ne_eq, Option.some.injEq]
  exact ne_of_isDig hcd isDig_dot

theorem localP2_drop_digit {X : List Char} {m : Nat} (hm : m < X.length)
    (hX : X.all isDig = true) (Y : List Char) :
    localP2 ((X ++ Y).drop m) = false := by
  rw [drop_append_le Y (Nat.le_of_lt hm)]
  have hne : X.drop m ≠ [] := by rw [ne_eq, List.drop_eq_nil_iff]; omega
  obtain ⟨c, rest', hcr⟩ := List.exists_cons_of_ne_nil hne
  have hcm : c ∈ X := List.drop_subset m X (by rw [hcr]; exact List.mem_cons_self c rest')
  have hcd : isDig c = true := List.all_eq_true.mp hX c hcm
  rw [hcr, List.cons_append]
  refine localP2_not_dot ?_
  simp only [List.head?_cons, ne_eq, Option.some.injEq]
  exact ne_of_isDig hcd isDig_dot

/-- Replacing the digit run of a pattern-1 decomposition by another all-digit
run of the same length and dropping the newline-truncated tail creates no
pattern-1 match at any offset beyond the original one. -/
theorem p1_transfer_max {A D nD B t : List Char}
    (hA : A.all notNL = true) (hD : D.all isDig = true) (hnD : nD.all isDig = true)
    (hlen : nD.length = D.length) (hB : B.all notNL = true)
    (ht : t = [] ∨ t.head? = some '\n')
    (hmax : ∀ j, A.length < j →
      posOk localP1 (A ++ '.' :: (D ++ '_' :: (B ++ t))) j = false) :
    ∀ j, A.length < j → posOk localP1 (A ++ '.' :: (nD ++ '_' :: B)) j = false := by
  intro j hj
  obtain ⟨m, rfl⟩ : ∃ m, j = A.length + 1 + m := ⟨j - A.length - 1, by omega⟩
  have hdropnew : (A ++ '.' :: (nD ++ '_' :: B)).drop (A.length + 1 + m) =
      (nD ++ '_' :: B).drop m := drop_append_cons A '.' (nD ++ '_' :: B) m
  rcases Nat.lt_or_ge m nD.length with hm | hm
  · have h1 : localP1 ((nD ++ '_' :: B).drop m) = false :=
      localP1_drop_digit hm hnD ('_' :: B)
    simp only [posOk, hdropnew, h1, Bool.and_false]
  · rcases Nat.eq_or_lt_of_le hm with hm2 | hm2
    · have h1 : localP1 ((nD ++ '_' :: B).drop m) = false := by
        rw [← hm2, List.drop_left]
        exact localP1_not_dot (by simp)
      simp only [posOk, hdropnew, h1, Bool.and_false]
    · obtain ⟨k, rfl⟩ : ∃ k, m = nD.length + 1 + k := ⟨m - nD.length - 1, by omega⟩
      have hdropnew2 : (nD ++ '_' :: B).drop (nD.length + 1 + k) = B.drop k :=
        drop_append_cons nD '_' B k
      rcases Nat.lt_or_ge k B.length with hk | hk
      · -- inside `B`: compare with the original string at the same offset
        have horig := hmax (A.length + 1 + (nD.length + 1 + k)) (by omega)
        have hdropold : (A ++ '.' :: (D ++ '_' :: (B ++ t))).drop
            (A.length + 1 + (nD.length + 1 + k)) = B.drop k ++ t := by
          rw [drop_append_cons A '.' (D ++ '_' :: (B ++ t)) (nD.length + 1 + k), hlen,
            drop_append_cons D '_' (B ++ t) k, drop_append_le t (Nat.le_of_lt hk)]
        have htakeold : ((A ++ '.' :: (D ++ '_' :: (B ++ t))).take
            (A.length + 1 + (nD.length + 1 + k))).all notNL = true := by
          rw [take_append_cons A '.' (D ++ '_' :: (B ++ t)) (nD.length + 1 + k), hlen,
            take_append_cons D '_' (B ++ t) k, take_append_le t (Nat.le_of_lt hk)]
          simp only [List.all_append, List.all_cons, hA, notNL_dot, notNL_us,
            all_notNL_of_all_isDig hD, all_take hB k, Bool.and_self, Bool.true_and,
            Bool.and_true]
        have hloc : localP1 (B.drop k ++ t) = false := by
          have h2 := horig
          simp only [posOk, hdropold, htakeold, Bool.true_and] at h2
          exact h2
        have h1 : localP1 (B.drop k) = false := by
          rw [← localP1_append_nl ht (B.drop k)]
          exact hloc
        simp only [posOk, hdropnew, hdropnew2, h1, Bool.and_false]
      · have h1 : localP1 (B.drop k) = false := by
          rw [List.drop_eq_nil_iff.mpr hk]
          rfl
        simp only [posOk, hdropnew, hdropnew2, h1, Bool.and_false]

theorem take_append_plain (u X : List Char) (m : Nat) :
    (u ++ X).take (u.length + m) = u ++ X.take m := by
  rw [List.take_append]

/-- Pattern-2 analogue of `p1_transfer_max` for a decomposition without the
underscore separator. -/
theorem p2_transfer_max {A D nD B t : List Char}
    (hA : A.all notNL = true) (hD : D.all isDig = true) (hnD : nD.all isDig = true)
    (hlen : nD.length = D.length) (hB : B.all notNL = true)
    (ht : t = [] ∨ t.head? = some '\n')
    (hmax : ∀ j, A.length < j →
      posOk localP2 (A ++ '.' :: (D ++ (B ++ t))) j = false) :
    ∀ j, A.length < j → posOk localP2 (A ++ '.' :: (nD ++ B)) j = false := by
  intro j hj
  obtain ⟨m, rfl⟩ : ∃ m, j = A.length + 1 + m := ⟨j - A.length - 1, by omega⟩
  have hdropnew : (A ++ '.' :: (nD ++ B)).drop (A.length + 1 + m) =
      (nD ++ B).drop m := drop_append_cons A '.' (nD ++ B) m
  rcases Nat.lt_or_ge m nD.length with hm | hm
  · have h1 : localP2 ((nD ++ B).drop m) = false := localP2_drop_digit hm hnD B
    simp only [posOk, hdropnew, h1, Bool.and_false]
  · obtain ⟨k, rfl⟩ : ∃ k, m = nD.length + k := ⟨m - nD.length, by omega⟩
    have hdropnew2 : (nD ++ B).drop (nD.length + k) = B.drop k :=
      drop_append_plain nD B k
    rcases Nat.lt_or_ge k B.length with hk | hk
    · have horig := hmax (A.length + 1 + (nD.length + k)) (by omega)
      have hdropold : (A ++ '.' :: (D ++ (B ++ t))).drop
          (A.length + 1 + (nD.length + k)) = B.drop k ++ t := by
        rw [drop_append_cons A '.' (D ++ (B ++ t)) (nD.length + k), hlen,
          drop_append_plain D (B ++ t) k, drop_append_le t (Nat.le_of_lt hk)]
      have htakeold : ((A ++ '.' :: (D ++ (B ++ t))).take
          (A.length + 1 + (nD.length + k))).all notNL = true := by
        rw [take_append_cons A '.' (D ++ (B ++ t)) (nD.length + k), hlen,
          take_append_plain D (B ++ t) k, take_append_le t (Nat.le_of_lt hk)]
        simp only [List.all_append, List.all_cons, hA, notNL_dot,
          all_notNL_of_all_isDig hD, all_take hB k, Bool.and_self, Bool.true_and,
          Bool.and_true]
      have hloc : localP2 (B.drop k ++ t) = false := by
        have h2 := horig
        simp only [posOk, hdropold, htakeold, Bool.true_and] at h2
        exact h2
      have h1 : localP2 (B.drop k) = false := by
        rw [← localP2_append_nl ht (B.drop k)]
        exact hloc
      simp only [posOk, hdropnew, hdropnew2, h1, Bool.and_false]
    · have h1 : localP2 (B.drop k) = false := by
        rw [List.drop_eq_nil_iff.mpr hk]
        rfl
      simp only [posOk, hdropnew, hdropnew2, h1, Bool.and_false]

/-- For a pattern-2 decomposition, replacing the digit run and dropping the
tail creates no pattern-1 match anywhere if the original string had none. -/
theorem p1_none_transfer {A D nD B t : List Char}
    (hA : A.all notNL = true) (hD : D.all isDig = true) (h0D : 0 < D.length)
    (hnD : nD.all isDig = true)
    (hlen : nD.length = D.length) (hB : B.all notNL = true)
    (ht : t = [] ∨ t.head? = some '\n')
    (hBtw : B.takeWhile isDig = []) (hBttw : (B ++ t).takeWhile isDig = [])
    (hnone : ∀ j, posOk localP1 (A ++ '.' :: (D ++ (B ++ t))) j = false) :
    ∀ j, posOk localP1 (A ++ '.' :: (nD ++ B)) j = false := by
  intro j
  rcases Nat.lt_trichotomy j A.length with hj | hj | hj
  · have htake : (A ++ '.' :: (nD ++ B)).take j =
        (A ++ '.' :: (D ++ (B ++ t))).take j := by
      rw [take_append_le _ (Nat.le_of_lt hj), take_append_le _ (Nat.le_of_lt hj)]
    have hne : A.drop j ≠ [] := by rw [ne_eq, List.drop_eq_nil_iff]; omega
    have hdrop : localP1 ((A ++ '.' :: (nD ++ B)).drop j) =
        localP1 ((A ++ '.' :: (D ++ (B ++ t))).drop j) := by
      rw [drop_append_le _ (Nat.le_of_lt hj), drop_append_le _ (Nat.le_of_lt hj)]
      exact localP1_prefix_congr hne _ _
    have h2 := hnone j
    simp only [posOk] at h2 ⊢
    rw [htake, hdrop]
    exact h2
  · subst hj
    have hdrop1 : (A ++ '.' :: (nD ++ B)).drop A.length = '.' :: (nD ++ B) :=
      List.drop_left A _
    have hdrop2 : (A ++ '.' :: (D ++ (B ++ t))).drop A.length =
        '.' :: (D ++ (B ++ t)) := List.drop_left A _
    have htake1 : (A ++ '.' :: (nD ++ B)).take A.length = A := List.take_left A _
    have htake2 : (A ++ '.' :: (D ++ (B ++ t))).take A.length = A := List.take_left A _
    have h2 := hnone A.length
    simp only [posOk, hdrop2, htake2, hA, Bool.true_and] at h2
    rw [localP1_cons] at h2
    have hrun2 : (D ++ (B ++ t)).takeWhile isDig = D := by
      rw [List.takeWhile_append_of_pos (by simpa [List.all_eq_true] using hD), hBttw,
        List.append_nil]
    rw [hrun2, List.drop_left] at h2
    have hd1 : decide (('.' : Char) = '.') = true := by decide
    have hd2 : decide (0 < D.length) = true := by simp [h0D]
    rw [hd1, hd2, Bool.true_and, Bool.true_and] at h2
    simp only [posOk, hdrop1, htake1, hA, Bool.true_and]
    rw [localP1_cons]
    have hrun1 : (nD ++ B).takeWhile isDig = nD := by
      rw [List.takeWhile_append_of_pos (by simpa [List.all_eq_true] using hnD), hBtw,
        List.append_nil]
    rw [hrun1, List.drop_left]
    have hB_us : decide (B.head? = some '_') = false := by
      cases hBc : B with
      | nil => simp
      | cons b bs =>
        rw [hBc, List.cons_append] at h2
        simp only [List.head?_cons, decide_eq_false_iff_not, Option.some.injEq] at h2 ⊢
        exact h2
    rw [hB_us]
    simp
  · obtain ⟨m, rfl⟩ : ∃ m, j = A.length + 1 + m := ⟨j - A.length - 1, by omega⟩
    have hdropnew : (A ++ '.' :: (nD ++ B)).drop (A.length + 1 + m) =
        (nD ++ B).drop m := drop_append_cons A '.' (nD ++ B) m
    rcases Nat.lt_or_ge m nD.length with hm | hm
    · have h1 : localP1 ((nD ++ B).drop m) = false := localP1_drop_digit hm hnD B
      simp only [posOk, hdropnew, h1, Bool.and_false]
    · obtain ⟨k, rfl⟩ : ∃ k, m = nD.length + k := ⟨m - nD.length, by omega⟩
      have hdropnew2 : (nD ++ B).drop (nD.length + k) = B.drop k :=
        drop_append_plain nD B k
      rcases Nat.lt_or_ge k B.length with hk | hk
      · have horig := hnone (A.length + 1 + (nD.length + k))
        have hdropold : (A ++ '.' :: (D ++ (B ++ t))).drop
            (A.length + 1 + (nD.length + k)) = B.drop k ++ t := by
          rw [drop_append_cons A '.' (D ++ (B ++ t)) (nD.length + k), hlen,
            drop_append_plain D (B ++ t) k, drop_append_le t (Nat.le_of_lt hk)]
        have htakeold : ((A ++ '.' :: (D ++ (B ++ t))).take
            (A.length + 1 + (nD.length + k))).all notNL = true := by
          rw [take_append_cons A '.' (D ++ (B ++ t)) (nD.length + k), hlen,
            take_append_plain D (B ++ t) k, take_append_le t (Nat.le_of_lt hk)]
          simp only [List.all_append, List.all_cons, hA, notNL_dot,
            all_notNL_of_all_isDig hD, all_take hB k, Bool.and_self, Bool.true_and,
            Bool.and_true]
        have hloc : localP1 (B.drop k ++ t) = false := by
          have h2 := horig
          simp only [posOk, hdropold, htakeold, Bool.true_and] at h2
          exact h2
        have h1 : localP1 (B.drop k) = false := by
          rw [← localP1_append_nl ht (B.drop k)]
          exact hloc
        simp only [posOk, hdropnew, hdropnew2, h1, Bool.and_false]
      · have h1 : localP1 (B.drop k) = false := by
          rw [List.drop_eq_nil_iff.mpr hk]
          rfl
        simp only [posOk, hdropnew, hdropnew2, h1, Bool.and_false]

/-! ## Round-trip through each heuristic -/

/-- Rendering a heuristic-1 template with any nonempty all-digit run
re-matches pattern 0 with the same prefix. -/
theorem roundtrip_b0 {f : String} {g0 g1 : List Char}
    (h : matchP0 f.data.reverse = some (g0, g1)) (nD : List Char)
    (hnD : nD.all isDig = true) (h0nD : 0 < nD.length) :
    inferT (String.mk ((g1.reverse ++ ['.']) ++ nD)) =
      some (g1.reverse ++ ['.'], nD, []) := by
  obtain ⟨hpos, hdot, hg0, hg1⟩ := matchP0_elim h
  have hg1n : g1.all notNL = true := by rw [hg1]; exact List.all_takeWhile
  have hdata : (String.mk ((g1.reverse ++ ['.']) ++ nD)).data.reverse =
      nD.reverse ++ '.' :: g1 := by
    show ((g1.reverse ++ ['.']) ++ nD).reverse = _
    simp
  have hm0 : matchP0 ((String.mk ((g1.reverse ++ ['.']) ++ nD)).data.reverse) =
      some (nD.reverse, g1) := by
    rw [hdata, matchP0_build g1 (by rw [List.all_reverse]; exact hnD)
      (by simpa using h0nD), tw_of_all hg1n]
  have hres := inferT_branch0 hm0
  simpa using hres

/-- Rendering a heuristic-2 template with any all-digit run of the original
length re-matches pattern 1 with the same groups (pattern 0 still fails). -/
theorem roundtrip_b1 {f : String} {A D B : List Char}
    (h0 : matchP0 f.data.reverse = none)
    (h1 : matchP1 f.data.reverse = some (A, D, B)) (nD : List Char)
    (hnD : nD.all isDig = true) (hlen : nD.length = D.length) :
    inferT (String.mk ((B.reverse ++ ['_']) ++ nD.reverse ++ ('.' :: A.reverse))) =
      some (B.reverse ++ ['_'], nD.reverse, '.' :: A.reverse) := by
  obtain ⟨t, hr, hA, h0D, hD, hB, ht, hmax⟩ := matchP1_shape h1
  have h0nD : 0 < nD.length := by omega
  have hdata : (String.mk ((B.reverse ++ ['_']) ++ nD.reverse ++
      ('.' :: A.reverse))).data.reverse = A ++ '.' :: (nD ++ '_' :: B) := by
    show ((B.reverse ++ ['_']) ++ nD.reverse ++ ('.' :: A.reverse)).reverse = _
    simp
  rw [hr] at h0 hmax
  have hrun : (nD ++ '_' :: B).takeWhile isDig = nD := by
    rw [List.takeWhile_append_of_pos (by simpa [List.all_eq_true] using hnD),
      List.takeWhile_cons_of_neg (by simp [isDig_us]), List.append_nil]
  have hpos' : posOk localP1 (A ++ '.' :: (nD ++ '_' :: B)) A.length = true := by
    simp only [posOk, List.take_left, List.drop_left, hA, Bool.true_and]
    rw [localP1_cons, hrun, List.drop_left]
    simp [h0nD]
  have hmax' := p1_transfer_max hA hD hnD hlen hB ht hmax
  have hext : p1Extract (A ++ '.' :: (nD ++ '_' :: B)) A.length = (A, nD, B) := by
    simp only [p1Extract]
    have hrest : (A ++ '.' :: (nD ++ '_' :: B)).drop (A.length + 1) =
        nD ++ '_' :: B := by
      exact drop_append_cons A '.' (nD ++ '_' :: B) 0
    rw [hrest, hrun, List.take_left]
    have hdrop2 : (nD ++ '_' :: B).drop (nD.length + 1) = B := by
      exact drop_append_cons nD '_' B 0
    rw [hdrop2, tw_of_all hB]
  have hm0' : matchP0 ((String.mk ((B.reverse ++ ['_']) ++ nD.reverse ++
      ('.' :: A.reverse))).data.reverse) = none := by
    rw [hdata]
    exact matchP0_none_congr _ h0
  have hm1' : matchP1 ((String.mk ((B.reverse ++ ['_']) ++ nD.reverse ++
      ('.' :: A.reverse))).data.reverse) = some (A, nD, B) := by
    rw [hdata, matchP1_intro hpos' hmax', hext]
  have hres := inferT_branch1 hm0' hm1'
  simpa using hres

/-- Rendering a heuristic-3 template with any all-digit run of the original
length re-matches pattern 2 with the same groups (patterns 0 and 1 still
fail). -/
theorem roundtrip_b2 {f : String} {A D B : List Char}
    (h0 : matchP0 f.data.reverse = none) (h1 : matchP1 f.data.reverse = none)
    (h2 : matchP2 f.data.reverse = some (A, D, B)) (nD : List Char)
    (hnD : nD.all isDig = true) (hlen : nD.length = D.length) :
    inferT (String.mk (B.reverse ++ nD.reverse ++ ('.' :: A.reverse))) =
      some (B.reverse, nD.reverse, '.' :: A.reverse) := by
  obtain ⟨t, hr, hA, h0D, hD, hB, ht, hBttw, hBtw, hmax⟩ := matchP2_shape h2
  have h0nD : 0 < nD.length := by omega
  have hdata : (String.mk (B.reverse ++ nD.reverse ++
      ('.' :: A.reverse))).data.reverse = A ++ '.' :: (nD ++ B) := by
    show (B.reverse ++ nD.reverse ++ ('.' :: A.reverse)).reverse = _
    simp
  rw [hr] at h0 hmax
  have hnone1 : ∀ j, posOk localP1 (A ++ '.' :: (D ++ (B ++ t))) j = false := by
    rw [← hr]
    exact matchP1_none_iff.mp h1
  have hrun : (nD ++ B).takeWhile isDig = nD := by
    rw [List.takeWhile_append_of_pos (by simpa [List.all_eq_true] using hnD),
      hBtw, List.append_nil]
  have hpos' : posOk localP2 (A ++ '.' :: (nD ++ B)) A.length = true := by
    simp only [posOk, List.take_left, List.drop_left, hA, Bool.true_and]
    rw [localP2_cons, hrun]
    simp [h0nD]
  have hmax' := p2_transfer_max hA hD hnD hlen hB ht hmax
  have hnone1' := p1_none_transfer hA hD h0D hnD hlen hB ht hBtw hBttw hnone1
  have hext : p2Extract (A ++ '.' :: (nD ++ B)) A.length = (A, nD, B) := by
    simp only [p2Extract]
    have hrest : (A ++ '.' :: (nD ++ B)).drop (A.length + 1) = nD ++ B := by
      exact drop_append_cons A '.' (nD ++ B) 0
    rw [hrest, hrun, List.take_left, List.drop_left]
    simp [tw_of_all hB]
  have hm0' : matchP0 ((String.mk (B.reverse ++ nD.reverse ++
      ('.' :: A.reverse))).data.reverse) = none := by
    rw [hdata]
    exact matchP0_none_congr _ h0
  have hm1' : matchP1 ((String.mk (B.reverse ++ nD.reverse ++
      ('.' :: A.reverse))).data.reverse) = none := by
    rw [hdata]
    exact matchP1_none_iff.mpr hnone1'
  have hm2' : matchP2 ((String.mk (B.reverse ++ nD.reverse ++
      ('.' :: A.reverse))).data.reverse) = some (A, nD, B) := by
    rw [hdata, matchP2_intro hpos' hmax', hext]
  have hres := inferT_branch2 hm0' hm1' hm2'
  simpa using hres

/-! ## Grouping lemmas -/

theorem sumLens_addEntry (m : List (String × List (Option Nat))) (k : String)
    (v : Option Nat) : sumLens (addEntry m k v) = sumLens m + 1 := by
  induction m with
  | nil => simp [addEntry, sumLens]
  | cons kv rest ih =>
    obtain ⟨k', vs⟩ := kv
    by_cases h : k' = k
    · simp [addEntry, h, sumLens, List.sum_cons]
      omega
    · simp only [addEntry, if_neg h, sumLens, List.map_cons, List.sum_cons] at ih ⊢
      omega

theorem sumLens_foldl (l : List (String × Option Nat))
    (acc : List (String × List (Option Nat))) :
    sumLens (l.foldl (fun m kv => addEntry m kv.1 kv.2) acc) =
      sumLens acc + l.length := by
  induction l generalizing acc with
  | nil => simp
  | cons kv l ih =>
    simp only [List.foldl_cons, List.length_cons]
    rw [ih, sumLens_addEntry]
    omega

theorem lookupVals_addEntry (m : List (String × List (Option Nat))) (k k' : String)
    (v : Option Nat) :
    lookupVals (addEntry m k v) k' =
      if k = k' then lookupVals m k' ++ [v] else lookupVals m k' := by
  induction m with
  | nil =>
    by_cases h : k = k'
    · simp [addEntry, lookupVals, h]
    · simp [addEntry, lookupVals, h]
  | cons kv rest ih =>
    obtain ⟨a, vs⟩ := kv
    by_cases hak : a = k
    · subst hak
      by_cases hk' : a = k'
      · simp [addEntry, lookupVals, hk']
      · simp [addEntry, lookupVals, hk']
    · by_cases hk' : a = k'
      · have hkk' : ¬(k = k') := fun e => hak (by rw [e, ← hk'])
        have hk'k : ¬(k' = k) := fun e => hkk' e.symm
        simp [addEntry, hak, lookupVals, hk', hkk', hk'k]
      · simp [addEntry, hak, lookupVals, hk', ih]

theorem lookupVals_foldl (l : List (String × Option Nat))
    (acc : List (String × List (Option Nat))) (k : String) :
    lookupVals (l.foldl (fun m kv => addEntry m kv.1 kv.2) acc) k =
      lookupVals acc k ++
        (l.filter (fun kv => decide (kv.1 = k))).map (fun kv => kv.2) := by
  induction l generalizing acc with
  | nil => simp
  | cons kv l ih =>
    simp only [List.foldl_cons]
    rw [ih, lookupVals_addEntry]
    by_cases h : kv.1 = k
    · simp [List.filter_cons, h]
    · simp [List.filter_cons, h]

/-! ## Membership lemmas for the no-match conditions -/

theorem localP1_mem_dot {l : List Char} (h : localP1 l = true) : '.' ∈ l := by
  cases l with
  | nil => exact absurd h (by simp [localP1_nil])
  | cons c rest =>
    rw [localP1_cons] at h
    obtain ⟨h1, _⟩ := band_elim h
    have hc := of_decide_eq_true h1
    subst hc
    exact List.mem_cons_self _ _

theorem localP2_mem_dot {l : List Char} (h : localP2 l = true) : '.' ∈ l := by
  cases l with
  | nil => exact absurd h (by simp [localP2_nil])
  | cons c rest =>
    rw [localP2_cons] at h
    obtain ⟨h1, _⟩ := band_elim h
    have hc := of_decide_eq_true h1
    subst hc
    exact List.mem_cons_self _ _

theorem tw_mem_dig {l : List Char} (h : 0 < (l.takeWhile isDig).length) :
    ∃ c ∈ l, isDig c = true := by
  have hne : l.takeWhile isDig ≠ [] := by
    intro he
    rw [he] at h
    simp at h
  obtain ⟨d, ds, hd⟩ := List.exists_cons_of_ne_nil hne
  have hdm : d ∈ l.takeWhile isDig := by rw [hd]; exact List.mem_cons_self _ _
  refine ⟨d, (List.takeWhile_prefix isDig).sublist.subset hdm, ?_⟩
  exact List.all_eq_true.mp List.all_takeWhile d hdm

theorem localP1_mem_dig {l : List Char} (h : localP1 l = true) :
    ∃ c ∈ l, isDig c = true := by
  cases l with
  | nil => exact absurd h (by simp [localP1_nil])
  | cons c rest =>
    rw [localP1_cons] at h
    obtain ⟨_, h2⟩ := band_elim h
    obtain ⟨h2, _⟩ := band_elim h2
    obtain ⟨d, hdm, hdd⟩ := tw_mem_dig (of_decide_eq_true h2)
    exact ⟨d, List.mem_cons_of_mem c hdm, hdd⟩

theorem localP2_mem_dig {l : List Char} (h : localP2 l = true) :
    ∃ c ∈ l, isDig c = true := by
  cases l with
  | nil => exact absurd h (by simp [localP2_nil])
  | cons c rest =>
    rw [localP2_cons] at h
    obtain ⟨_, h2⟩ := band_elim h
    obtain ⟨d, hdm, hdd⟩ := tw_mem_dig (of_decide_eq_true h2)
    exact ⟨d, List.mem_cons_of_mem c hdm, hdd⟩

/-! ## The claim theorems, part 1 -/

/-- C2.  `infer("foo_0001.cbf")` returns the template with prefix `"foo_"`,
digit count 4 and suffix `".cbf"` — canonical string `"foo_####.cbf"` — and
index 1; `infer("image.0001")` returns prefix `"image."`, digit count 4 and
empty suffix — canonical string `"image.####"` — and index 1. -/
theorem worked_examples :
    inferT "foo_0001.cbf" = some ("foo_".data, "0001".data, ".cbf".data) ∧
    template_regex "foo_0001.cbf" = (some "foo_####.cbf", 1) ∧
    "foo_####.cbf" = "foo_" ++ "####" ++ ".cbf" ∧
    inferT "image.0001" = some ("image.".data, "0001".data, []) ∧
    template_regex "image.0001" = (some "image.####", 1) ∧
    "image.####" = "image." ++ "####" ++ "" := by
  decide

/-- C3.  `infer` tries exactly the three heuristics — bare numeric suffix,
underscore-delimited suffix, generic suffix — in that fixed order; the result
is that of the first heuristic that matches, a later heuristic never
overriding an earlier one. -/
theorem heuristic_priority (f : String) :
    inferT f = ((bareNumeric f).orElse (fun _ =>
        (underscoreDelim f).orElse (fun _ => genericTail f))) ∧
    (bareNumeric f ≠ none → inferT f = bareNumeric f) ∧
    (bareNumeric f = none → underscoreDelim f ≠ none →
      inferT f = underscoreDelim f) ∧
    (bareNumeric f = none → underscoreDelim f = none →
      inferT f = genericTail f) := by
  unfold bareNumeric underscoreDelim genericTail
  simp only [inferT]
  cases hm0 : matchP0 f.data.reverse with
  | some g =>
    obtain ⟨g0, g1⟩ := g
    simp [Option.orElse]
  | none =>
    cases hm1 : matchP1 f.data.reverse with
    | some g =>
      obtain ⟨g0, g1, g2⟩ := g
      simp [Option.orElse]
    | none =>
      cases hm2 : matchP2 f.data.reverse with
      | some g =>
        obtain ⟨g0, g1, g2⟩ := g
        simp [Option.orElse]
      | none => simp [Option.orElse]

theorem heuristic_priority_witness :
    inferT "image.0001" = bareNumeric "image.0001" :=
  (heuristic_priority "image.0001").2.1 (by decide)

/-- C5.  Every input filename contributes exactly one appended value to
exactly one group, so the value-list lengths sum to the input length; within
each group the appended values are those of the inputs with that key, in
input order, without sorting or deduplication. -/
theorem grouping_complete (filenames : List String) :
    sumLens (group_files_by_imageset filenames) = filenames.length ∧
    ∀ k, lookupVals (group_files_by_imageset filenames) k =
      ((filenames.map keyValue).filter (fun kv => decide (kv.1 = k))).map
        (fun kv => kv.2) := by
  unfold group_files_by_imageset
  constructor
  · rw [sumLens_foldl]
    simp [sumLens]
  · intro k
    rw [lookupVals_foldl]
    simp [lookupVals]

/-- C8.  When no heuristic matches — in particular whenever the filename
contains no `.`, or contains no digit — `template_regex` returns `(None, 0)`
normally (it is a total function of the string; the embedding is pure, so no
I/O and no exception is possible). -/
theorem no_match_none (f : String) :
    (matchP0 f.data.reverse = none → matchP1 f.data.reverse = none →
      matchP2 f.data.reverse = none → template_regex f = (none, 0)) ∧
    ('.' ∉ f.data → template_regex f = (none, 0)) ∧
    ((∀ c ∈ f.data, isDig c = false) → template_regex f = (none, 0)) := by
  refine ⟨fun h0 h1 h2 => template_regex_none (inferT_none h0 h1 h2), ?_, ?_⟩
  · intro hdot
    have hdotr : '.' ∉ f.data.reverse := by
      rw [List.mem_reverse]
      exact hdot
    have h0 : matchP0 f.data.reverse = none := by
      cases hm : matchP0 f.data.reverse with
      | none => rfl
      | some g =>
        obtain ⟨g0, g1⟩ := g
        obtain ⟨_, hdot2, _, _⟩ := matchP0_elim hm
        exact absurd (List.drop_subset _ _
          (List.mem_of_mem_head? (by rw [hdot2]; rfl))) hdotr
    have h1 : matchP1 f.data.reverse = none := by
      rw [matchP1_none_iff]
      intro i
      rcases Bool.eq_false_or_eq_true (posOk localP1 f.data.reverse i) with h | h
      · obtain ⟨_, hloc⟩ := band_elim h
        exact absurd (List.drop_subset _ _ (localP1_mem_dot hloc)) hdotr
      · exact h
    have h2 : matchP2 f.data.reverse = none := by
      rw [matchP2_none_iff]
      intro i
      rcases Bool.eq_false_or_eq_true (posOk localP2 f.data.reverse i) with h | h
      · obtain ⟨_, hloc⟩ := band_elim h
        exact absurd (List.drop_subset _ _ (localP2_mem_dot hloc)) hdotr
      · exact h
    exact template_regex_none (inferT_none h0 h1 h2)
  · intro hdig
    have hdigr : ∀ c ∈ f.data.reverse, isDig c = false := by
      intro c hc
      exact hdig c (List.mem_reverse.mp hc)
    have h0 : matchP0 f.data.reverse = none := by
      cases hm : matchP0 f.data.reverse with
      | none => rfl
      | some g =>
        obtain ⟨g0, g1⟩ := g
        obtain ⟨hpos, _, _, _⟩ := matchP0_elim hm
        obtain ⟨d, hdm, hdd⟩ := tw_mem_dig hpos
        rw [hdigr d hdm] at hdd
        exact Bool.noConfusion hdd
    have h1 : matchP1 f.data.reverse = none := by
      rw [matchP1_none_iff]
      intro i
      rcases Bool.eq_false_or_eq_true (posOk localP1 f.data.reverse i) with h | h
      · obtain ⟨_, hloc⟩ := band_elim h
        obtain ⟨d, hdm, hdd⟩ := localP1_mem_dig hloc
        rw [hdigr d (List.drop_subset _ _ hdm)] at hdd
        exact Bool.noConfusion hdd
      · exact h
    have h2 : matchP2 f.data.reverse = none := by
      rw [matchP2_none_iff]
      intro i
      rcases Bool.eq_false_or_eq_true (posOk localP2 f.data.reverse i) with h | h
      · obtain ⟨_, hloc⟩ := band_elim h
        obtain ⟨d, hdm, hdd⟩ := localP2_mem_dig hloc
        rw [hdigr d (List.drop_subset _ _ hdm)] at hdd
        exact Bool.noConfusion hdd
      · exact h
    exact template_regex_none (inferT_none h0 h1 h2)

theorem no_match_none_witness : template_regex "README" = (none, 0) :=
  (no_match_none "README").2.1 (by decide)

/-- C9.  When the base filename yields no template, `find_matching_images`
returns (without raising) the single-element list with the input path
unchanged, whatever the directory listing is (the listing plays no role in
this branch). -/
theorem no_template_passthrough (listing : List String) (p : String)
    (h : (template_regex (splitPath p).2).1 = none) :
    find_matching_images listing p = some [p] := by
  unfold find_matching_images
  cases htr : template_regex (splitPath p).2 with
  | mk o i =>
    cases o with
    | some t =>
      rw [htr] at h
      exact absurd h (by simp)
    | none => rfl

theorem no_template_passthrough_witness :
    find_matching_images ["x"] "README" = some ["README"] :=
  no_template_passthrough ["x"] "README" (by decide)

/-- C10.  Whenever `infer` returns a template, the digit group is a nonempty
run of digit characters taken verbatim from the filename, the canonical
string carries exactly `dgts.length` placeholder characters, and the index is
the value of that run, so `0 ≤ index < 10 ^ digit_count` (leading zeros widen
the run, not the value). -/
theorem result_invariant (f : String) (pfx dgts ext : List Char)
    (h : inferT f = some (pfx, dgts, ext)) :
    template_regex f =
      (some (String.mk (pfx ++ hashes dgts.length ++ ext)), digitsVal dgts) ∧
    1 ≤ dgts.length ∧ dgts.all isDig = true ∧
    digitsVal dgts < 10 ^ dgts.length := by
  obtain ⟨h1, h2⟩ := inferT_dgts h
  exact ⟨template_regex_eq h, h1, h2, digitsVal_lt h2⟩

theorem result_invariant_witness :
    template_regex "foo_0001.cbf" =
      (some (String.mk ("foo_".data ++ hashes "0001".data.length ++ ".cbf".data)),
        digitsVal "0001".data) ∧
    1 ≤ "0001".data.length ∧ "0001".data.all isDig = true ∧
    digitsVal "0001".data < 10 ^ "0001".data.length :=
  result_invariant "foo_0001.cbf" "foo_".data "0001".data ".cbf".data (by decide)

/-! ## The claim theorems, part 2: tie-break and round trip -/

/-- C1 counterexample: `"a_1.b_2.c"` contains two digit runs that satisfy the
underscore heuristic's required separators (`_1.` and `_2.`).  Binding the
run adjacent to the `.` nearest the *end* would give template `"a_1.b_#.c"`
with index 2; the code instead returns `("a_#.b_2.c", 1)`, binding the run
whose `.` is nearest the start. -/
theorem tiebreak_cex :
    template_regex "a_1.b_2.c" = (some "a_#.b_2.c", 1) ∧
    template_regex "a_1.b_2.c" ≠ (some "a_1.b_#.c", 2) := by
  decide

/-- C1 (amended).  When more than one digit run satisfies a heuristic's
required literal separators, the heuristic binds the run adjacent to the `.`
nearest the *start* of the filename (the reversed-string greedy `(.*)`
maximizes the tail after the chosen `.`): every alternative decomposition of
the filename satisfying the heuristic's separators has a post-dot tail `v` no
longer than the chosen extension's tail, i.e. `v.length < ext.length`.  The
bare-numeric-suffix heuristic is anchored at the very end of the filename. -/
theorem tiebreak_nearest_start (f : String) :
    (∀ pfx dgts ext, matchP0 f.data.reverse ≠ none →
      inferT f = some (pfx, dgts, ext) →
      ext = [] ∧ ∃ pre, f.data = pre ++ pfx ++ dgts) ∧
    (∀ pfx dgts ext, matchP0 f.data.reverse = none →
      matchP1 f.data.reverse ≠ none →
      inferT f = some (pfx, dgts, ext) →
      ∀ u ds v, f.data = u ++ '_' :: (ds ++ '.' :: v) → ds ≠ [] →
        ds.all isDig = true → v.all notNL = true → v.length < ext.length) ∧
    (∀ pfx dgts ext, matchP0 f.data.reverse = none →
      matchP1 f.data.reverse = none →
      inferT f = some (pfx, dgts, ext) →
      ∀ u ds v, f.data = u ++ (ds ++ '.' :: v) → ds ≠ [] →
        ds.all isDig = true → v.all notNL = true → v.length < ext.length) := by
  refine ⟨?_, ?_, ?_⟩
  · intro pfx dgts ext hne hi
    cases hm : matchP0 f.data.reverse with
    | none => exact absurd hm hne
    | some g =>
      obtain ⟨g0, g1⟩ := g
      have hi0 := inferT_branch0 hm
      rw [hi] at hi0
      injection hi0 with hi0
      injection hi0 with hp hi0
      injection hi0 with hd he
      obtain ⟨hpos, hdot, hg0, hg1⟩ := matchP0_elim hm
      have hdw := drop_tw_length isDig f.data.reverse
      obtain ⟨rest, hrest⟩ : ∃ rest,
          f.data.reverse.dropWhile isDig = '.' :: rest := by
        rw [← hdw]
        cases hd2 : f.data.reverse.drop
            ((f.data.reverse.takeWhile isDig).length) with
        | nil => rw [hd2] at hdot; exact absurd hdot (by simp)
        | cons c2 b =>
          rw [hd2] at hdot
          obtain rfl : c2 = '.' := by simpa using hdot
          exact ⟨b, rfl⟩
      have hr : f.data.reverse = g0 ++ '.' :: rest := by
        conv_lhs => rw [← List.takeWhile_append_dropWhile isDig f.data.reverse]
        rw [hrest, hg0]
      have hrest2 : rest = g1 ++ rest.dropWhile notNL := by
        rw [hg1]
        have : f.data.reverse.drop ((f.data.reverse.takeWhile isDig).length + 1) =
            rest := by
          rw [← List.tail_drop, hdw, hrest]
          rfl
        rw [this]
        exact (List.takeWhile_append_dropWhile notNL rest).symm
      refine ⟨he, (rest.dropWhile notNL).reverse, ?_⟩
      have hrrev : rest.reverse = (rest.dropWhile notNL).reverse ++ g1.reverse := by
        conv_lhs => rw [hrest2]
        simp
      calc f.data = (f.data.reverse).reverse := (List.reverse_reverse _).symm
        _ = (g0 ++ '.' :: rest).reverse := by rw [hr]
        _ = (rest.dropWhile notNL).reverse ++ pfx ++ dgts := by
            rw [hp, hd]
            simp [hrrev, List.append_assoc]
  · intro pfx dgts ext hm0 hne hi u ds v hdec hds hdsdig hvn
    cases hm : matchP1 f.data.reverse with
    | none => exact absurd hm hne
    | some g =>
      obtain ⟨A, D, B⟩ := g
      have hi1 := inferT_branch1 hm0 hm
      rw [hi] at hi1
      injection hi1 with hi1
      injection hi1 with hp hi1
      injection hi1 with hd he
      obtain ⟨t, hr, hA, h0D, hD, hB, ht, hmax⟩ := matchP1_shape hm
      have hrdec : f.data.reverse = v.reverse ++ '.' :: (ds.reverse ++ '_' :: u.reverse) := by
        rw [hdec]
        simp
      have hpos : posOk localP1 f.data.reverse v.length = true := by
        rw [hrdec]
        have htk : (v.reverse ++ '.' :: (ds.reverse ++ '_' :: u.reverse)).take
            v.length = v.reverse := List.take_left' (by simp)
        have hdk : (v.reverse ++ '.' :: (ds.reverse ++ '_' :: u.reverse)).drop
            v.length = '.' :: (ds.reverse ++ '_' :: u.reverse) :=
          List.drop_left' (by simp)
        simp only [posOk, htk, hdk]
        rw [List.all_reverse, hvn, Bool.true_and, localP1_cons]
        have hrun : (ds.reverse ++ '_' :: u.reverse).takeWhile isDig = ds.reverse := by
          rw [List.takeWhile_append_of_pos
            (by simpa [List.all_eq_true] using hdsdig),
            List.takeWhile_cons_of_neg (by simp [isDig_us]), List.append_nil]
        rw [hrun, List.drop_left]
        have h0ds : 0 < ds.length := List.length_pos.mpr hds
        simp [h0ds]
      by_contra hcon
      push_neg at hcon
      have hvA : A.length < v.length := by
        have : ext.length = A.length + 1 := by rw [he]; simp
        omega
      rw [hmax v.length hvA] at hpos
      exact Bool.noConfusion hpos
  · intro pfx dgts ext hm0 hm1 hi u ds v hdec hds hdsdig hvn
    cases hm : matchP2 f.data.reverse with
    | none =>
      rw [inferT_none hm0 hm1 hm] at hi
      exact absurd hi (by simp)
    | some g =>
      obtain ⟨A, D, B⟩ := g
      have hi2 := inferT_branch2 hm0 hm1 hm
      rw [hi] at hi2
      injection hi2 with hi2
      injection hi2 with hp hi2
      injection hi2 with hd he
      obtain ⟨t, hr, hA, h0D, hD, hB, ht, hBttw, hBtw, hmax⟩ := matchP2_shape hm
      have hrdec : f.data.reverse = v.reverse ++ '.' :: (ds.reverse ++ u.reverse) := by
        rw [hdec]
        simp
      have hpos : posOk localP2 f.data.reverse v.length = true := by
        rw [hrdec]
        have htk : (v.reverse ++ '.' :: (ds.reverse ++ u.reverse)).take
            v.length = v.reverse := List.take_left' (by simp)
        have hdk : (v.reverse ++ '.' :: (ds.reverse ++ u.reverse)).drop
            v.length = '.' :: (ds.reverse ++ u.reverse) :=
          List.drop_left' (by simp)
        simp only [posOk, htk, hdk]
        rw [List.all_reverse, hvn, Bool.true_and, localP2_cons]
        have h0run : 0 < ((ds.reverse ++ u.reverse).takeWhile isDig).length := by
          obtain ⟨d0, ds0, hd0⟩ := List.exists_cons_of_ne_nil
            (show ds.reverse ≠ [] by simpa using hds)
          have hd0dig : isDig d0 = true := by
            have : d0 ∈ ds.reverse := by rw [hd0]; exact List.mem_cons_self _ _
            exact List.all_eq_true.mp (by rw [List.all_reverse]; exact hdsdig) d0 this
          rw [hd0, List.cons_append, List.takeWhile_cons_of_pos hd0dig]
          simp
        simp [h0run]
      by_contra hcon
      push_neg at hcon
      have hvA : A.length < v.length := by
        have : ext.length = A.length + 1 := by rw [he]; simp
        omega
      rw [hmax v.length hvA] at hpos
      exact Bool.noConfusion hpos

theorem tiebreak_nearest_start_witness :
    (['c'] : List Char).length < (".b_2.c".data).length :=
  (tiebreak_nearest_start "a_1.b_2.c").2.1 "a_".data ['1'] ".b_2.c".data
    (by decide) (by decide) (by decide) "a_1.b".data ['2'] ['c']
    (by decide) (by decide) (by decide) (by decide)

/-- C4 (round trip).  If `infer f` produces `(prefix, digits, exten)`, then
for every `j < 10 ^ digits.length`, rendering the template with `j`
zero-padded to `digits.length` characters yields a filename on which `infer`
returns the same template again, with index `j`. -/
theorem roundtrip_fixed_point (f : String) (pfx dgts ext : List Char) (j : Nat)
    (h : inferT f = some (pfx, dgts, ext)) (hj : j < 10 ^ dgts.length) :
    inferT (String.mk (pfx ++ pctD dgts.length j ++ ext)) =
      some (pfx, pctD dgts.length j, ext) ∧
    template_regex (String.mk (pfx ++ pctD dgts.length j ++ ext)) =
      (some (String.mk (pfx ++ hashes dgts.length ++ ext)), j) ∧
    (template_regex f).1 = some (String.mk (pfx ++ hashes dgts.length ++ ext)) := by
  have hinf : inferT (String.mk (pfx ++ pctD dgts.length j ++ ext)) =
      some (pfx, pctD dgts.length j, ext) := by
    rcases inferT_elim h with ⟨g0, g1, hm, hp, hd, he⟩ |
      ⟨g0, g1, g2, hm0, hm, hp, hd, he⟩ | ⟨g0, g1, g2, hm0, hm1, hm, hp, hd, he⟩
    · subst hp; subst hd; subst he
      have hb := roundtrip_b0 hm (pctD (g0.reverse).length j)
        (pctD_all_isDig _ j) (by rw [pctD_length]; simpa using
          (matchP0_elim hm).1.trans_eq (by rw [(matchP0_elim hm).2.2.1]))
      simpa using hb
    · subst hp; subst hd; subst he
      have hb := roundtrip_b1 hm0 hm ((pctD (g1.reverse).length j).reverse)
        (by rw [List.all_reverse]; exact pctD_all_isDig _ j)
        (by rw [List.length_reverse, pctD_length, List.length_reverse])
      simpa using hb
    · subst hp; subst hd; subst he
      have hb := roundtrip_b2 hm0 hm1 hm ((pctD (g1.reverse).length j).reverse)
        (by rw [List.all_reverse]; exact pctD_all_isDig _ j)
        (by rw [List.length_reverse, pctD_length, List.length_reverse])
      simpa using hb
  refine ⟨hinf, ?_, ?_⟩
  · rw [template_regex_eq hinf, pctD_length, digitsVal_pctD hj]
  · rw [template_regex_eq h]

theorem roundtrip_fixed_point_witness :
    inferT (String.mk ("foo_".data ++ pctD "0001".data.length 42 ++ ".cbf".data)) =
      some ("foo_".data, pctD "0001".data.length 42, ".cbf".data) ∧
    template_regex (String.mk ("foo_".data ++ pctD "0001".data.length 42 ++
      ".cbf".data)) =
      (some (String.mk ("foo_".data ++ hashes "0001".data.length ++ ".cbf".data)),
        42) ∧
    (template_regex "foo_0001.cbf").1 =
      some (String.mk ("foo_".data ++ hashes "0001".data.length ++ ".cbf".data)) :=
  roundtrip_fixed_point "foo_0001.cbf" "foo_".data "0001".data ".cbf".data 42
    (by decide) (by decide)

/-! ## The claim theorems, part 3: materialization -/

set_option maxRecDepth 10000 in
/-- C7 counterexample: with the directory listing exactly
`a_001.img, a_002.img, a_004.img`, the code joins every matching name to the
`"."` directory (`os.path.join(".", name)`), so it does not return the bare
names the claim predicts. -/
theorem gap_scenario_cex :
    find_matching_images ["a_001.img", "a_002.img", "a_004.img"] "a_001.img" ≠
      some ["a_001.img", "a_002.img", "a_004.img"] := by
  decide

set_option maxRecDepth 10000 in
/-- C7 (amended): with the directory listing exactly
`a_001.img, a_002.img, a_004.img`, `find_matching_images` returns
`["./a_001.img", "./a_002.img", "./a_004.img"]` in that order — the three
existing frames, each prefixed with the `"."` directory, with the missing
index 3 skipped. -/
theorem gap_scenario :
    find_matching_images ["a_001.img", "a_002.img", "a_004.img"] "a_001.img" =
      some ["./a_001.img", "./a_002.img", "./a_004.img"] := by
  decide

set_option maxRecDepth 10000 in
/-- C6 counterexample: for `"a#b_1.cbf"` the inferred digit run is `"1"`
(digit count 1), but the materializer re-derives the width as
`template.count('#') = 2` because the filename itself contains `'#'`; with a
listing of the eleven names `a00.cbf` … `a10.cbf` the result has 11 entries,
exceeding the claimed bound `10 ^ 1`. -/
theorem materialize_cex :
    inferT "a#b_1.cbf" = some ("a#b_".data, ['1'], ".cbf".data) ∧
    (find_matching_images
      ["a00.cbf", "a01.cbf", "a02.cbf", "a03.cbf", "a04.cbf", "a05.cbf",
        "a06.cbf", "a07.cbf", "a08.cbf", "a09.cbf", "a10.cbf"]
      "a#b_1.cbf").map List.length = some 11 ∧
    ¬((11 : Nat) ≤ 10 ^ (['1'] : List Char).length) := by
  decide

theorem template_regex_inv {f t : String} {i : Nat}
    (h : template_regex f = (some t, i)) :
    ∃ pfx dgts ext, inferT f = some (pfx, dgts, ext) ∧
      t = String.mk (pfx ++ hashes dgts.length ++ ext) ∧ i = digitsVal dgts := by
  unfold template_regex at h
  cases hI : inferT f with
  | none =>
    rw [hI] at h
    injection h with h1 h2
    exact absurd h1 (by simp)
  | some g =>
    obtain ⟨pfx, dgts, ext⟩ := g
    rw [hI] at h
    injection h with h1 h2
    exact ⟨pfx, dgts, ext, rfl, (Option.some.inj h1).symm, h2.symm⟩

theorem hashCount_template (pfx : List Char) (n : Nat) (ext : List Char) :
    hashCount (String.mk (pfx ++ hashes n ++ ext)) =
      pfx.count '#' + n + ext.count '#' := by
  unfold hashCount hashes
  show (pfx ++ List.replicate n '#' ++ ext).count '#' = _
  rw [List.count_append, List.count_append, List.count_replicate_self]

theorem joinPath_inj {dir x y : String}
    (hhd : x.data.head? = some '/' ↔ y.data.head? = some '/')
    (h : joinPath dir x = joinPath dir y) : x = y := by
  unfold joinPath at h
  by_cases hx : x.data.head? = some '/'
  · rw [if_pos hx, if_pos (hhd.mp hx)] at h
    exact h
  · have hy : ¬(y.data.head? = some '/') := fun e => hx (hhd.mpr e)
    rw [if_neg hx, if_neg hy] at h
    by_cases hd : dir = "" ∨ dir.data.getLast? = some '/'
    · rw [if_pos hd, if_pos hd] at h
      apply String.ext
      have h2 := congrArg String.data h
      simp only [String.data_append] at h2
      exact List.append_cancel_left h2
    · rw [if_neg hd, if_neg hd] at h
      apply String.ext
      have h2 := congrArg String.data h
      simp only [String.data_append] at h2
      rw [List.append_assoc, List.append_assoc] at h2
      exact List.append_cancel_left (List.append_cancel_left h2)

theorem renderName_inj {t : String} {j j' : Nat}
    (hj : j < 10 ^ hashCount t) (hj' : j' < 10 ^ hashCount t)
    (h : renderName t j = renderName t j') : j = j' := by
  unfold renderName at h
  have h2 : splitPfx t ++ pctD (hashCount t) j ++ splitSfx t =
      splitPfx t ++ pctD (hashCount t) j' ++ splitSfx t := congrArg String.data h
  rw [List.append_assoc, List.append_assoc] at h2
  have h3 := List.append_cancel_left h2
  have h4 : pctD (hashCount t) j = pctD (hashCount t) j' :=
    List.append_cancel_right h3
  exact pctD_inj hj hj' h4

theorem head_pctD_append_dig {w : Nat} (hw : 0 < w) (j : Nat) (sfx : List Char)
    {c : Char} (hc : (pctD w j ++ sfx).head? = some c) : isDig c = true := by
  obtain ⟨d0, ds0, hd⟩ := List.exists_cons_of_ne_nil (pctD_ne_nil w j hw)
  rw [hd, List.cons_append] at hc
  have : d0 = c := by simpa using hc
  subst this
  have hm : d0 ∈ pctD w j := by rw [hd]; exact List.mem_cons_self _ _
  exact List.all_eq_true.mp (pctD_all_isDig w j) d0 hm

theorem renderName_head_slash {t : String} (hh : 0 < hashCount t) (j j' : Nat) :
    ((renderName t j).data.head? = some '/' ↔
      (renderName t j').data.head? = some '/') := by
  unfold renderName
  show ((splitPfx t ++ pctD (hashCount t) j ++ splitSfx t).head? = some '/' ↔
    (splitPfx t ++ pctD (hashCount t) j' ++ splitSfx t).head? = some '/')
  rw [List.append_assoc, List.append_assoc]
  cases hp : splitPfx t with
  | cons c cs => simp
  | nil =>
    simp only [List.nil_append]
    constructor <;> intro hcon <;> exfalso
    · exact absurd (head_pctD_append_dig hh j _ hcon) (by simp [isDig_slash])
    · exact absurd (head_pctD_append_dig hh j' _ hcon) (by simp [isDig_slash])

theorem decLenAux_irrel : ∀ (m f g : Nat), 0 < f → 0 < g →
    m < 10 ^ f → m < 10 ^ g → decLenAux f m = decLenAux g m := by
  intro m
  induction m using Nat.strong_induction_on with
  | _ m ih =>
    intro f g hf hg hmf hmg
    obtain ⟨f', rfl⟩ : ∃ f', f = f' + 1 := ⟨f - 1, by omega⟩
    obtain ⟨g', rfl⟩ : ∃ g', g = g' + 1 := ⟨g - 1, by omega⟩
    by_cases hm : m < 10
    · simp [decLenAux, hm]
    · have hf' : 0 < f' := by
        rcases Nat.eq_zero_or_pos f' with rfl | h
        · norm_num at hmf; omega
        · exact h
      have hg' : 0 < g' := by
        rcases Nat.eq_zero_or_pos g' with rfl | h
        · norm_num at hmg; omega
        · exact h
      have hdf : m / 10 < 10 ^ f' := by
        rw [Nat.div_lt_iff_lt_mul (by norm_num)]
        calc m < 10 ^ (f' + 1) := hmf
          _ = 10 ^ f' * 10 := pow_succ 10 f'
      have hdg : m / 10 < 10 ^ g' := by
        rw [Nat.div_lt_iff_lt_mul (by norm_num)]
        calc m < 10 ^ (g' + 1) := hmg
          _ = 10 ^ g' * 10 := pow_succ 10 g'
      have hlt : m / 10 < m := Nat.div_lt_self (by omega) (by norm_num)
      rw [show decLenAux (f' + 1) m = decLenAux f' (m / 10) + 1 by
            simp [decLenAux, hm],
          show decLenAux (g' + 1) m = decLenAux g' (m / 10) + 1 by
            simp [decLenAux, hm],
          ih (m / 10) hlt f' g' hf' hg' hdf hdg]

theorem lt_pow_succ_self (m : Nat) : m < 10 ^ (m + 1) := by
  calc m < 10 ^ m := Nat.lt_pow_self (by norm_num) m
    _ ≤ 10 ^ (m + 1) := Nat.pow_le_pow_right (by norm_num) (by omega)

theorem decLen_small {m : Nat} (hm : m < 10) : decLen m = 1 := by
  simp [decLen, decLenAux, hm]

theorem decLen_big {m : Nat} (hm : 10 ≤ m) :
    decLen m = decLen (m / 10) + 1 := by
  have h1 : decLen m = decLenAux m (m / 10) + 1 := by
    simp [decLen, decLenAux, Nat.not_lt.mpr hm]
  rw [h1, decLen]
  congr 1
  exact decLenAux_irrel (m / 10) m (m / 10 + 1) (by omega) (by omega)
    (lt_of_le_of_lt (Nat.div_le_self m 10) (Nat.lt_pow_self (by norm_num) m))
    (lt_pow_succ_self (m / 10))

theorem lt_pow_decLen : ∀ m : Nat, m < 10 ^ decLen m := by
  intro m
  induction m using Nat.strong_induction_on with
  | _ m ih =>
    by_cases hm : m < 10
    · rw [decLen_small hm, pow_one]; exact hm
    · have h10 : 10 ≤ m := by omega
      rw [decLen_big h10, pow_succ]
      have hih := ih (m / 10) (Nat.div_lt_self (by omega) (by norm_num))
      calc m < (m / 10 + 1) * 10 := by omega
        _ ≤ 10 ^ decLen (m / 10) * 10 := Nat.mul_le_mul_right 10 hih

theorem decLen_le : ∀ (m w : Nat), 0 < w → m < 10 ^ w → decLen m ≤ w := by
  intro m
  induction m using Nat.strong_induction_on with
  | _ m ih =>
    intro w hw hm
    by_cases h10 : m < 10
    · rw [decLen_small h10]; omega
    · have hw2 : 2 ≤ w := by
        by_contra hc
        have hw1 : w = 1 := by omega
        subst hw1
        rw [pow_one] at hm
        omega
      rw [decLen_big (by omega)]
      have hdiv : m / 10 < 10 ^ (w - 1) := by
        rw [Nat.div_lt_iff_lt_mul (by norm_num)]
        calc m < 10 ^ w := hm
          _ = 10 ^ (w - 1) * 10 := by
              rw [← pow_succ]
              congr 1
              omega
      have := ih (m / 10) (Nat.div_lt_self (by omega) (by norm_num))
        (w - 1) (by omega) hdiv
      omega

theorem pctD_zero (a : Nat) : pctD a 0 = List.replicate a '0' := by
  induction a with
  | zero => rfl
  | succ a ih =>
    simp only [pctD, Nat.zero_div, ih]
    rw [List.replicate_succ']
    rfl

theorem pctD_split : ∀ (b a n : Nat), n < 10 ^ b →
    pctD (a + b) n = List.replicate a '0' ++ pctD b n := by
  intro b
  induction b with
  | zero =>
    intro a n hn
    have hn0 : n = 0 := by simpa using hn
    subst hn0
    rw [Nat.add_zero, pctD_zero,
      show pctD 0 0 = ([] : List Char) from rfl, List.append_nil]
  | succ b ih =>
    intro a n hn
    rw [show a + (b + 1) = (a + b) + 1 by omega]
    simp only [pctD]
    rw [ih a (n / 10) (by
        rw [Nat.div_lt_iff_lt_mul (by norm_num)]
        calc n < 10 ^ (b + 1) := hn
          _ = 10 ^ b * 10 := pow_succ 10 b),
      List.append_assoc]

theorem decDigits_all_isDig (n : Nat) : (decDigits n).all isDig = true :=
  pctD_all_isDig _ _

theorem digitsVal_decDigits (n : Nat) : digitsVal (decDigits n) = n :=
  digitsVal_pctD (lt_pow_decLen n)

theorem decDigits_length (n : Nat) : (decDigits n).length = decLen n :=
  pctD_length _ _

theorem replicate_pad_decDigits {w j : Nat} (hw : 0 < w) (hj : j < 10 ^ w) :
    List.replicate (w - decLen j) '0' ++ decDigits j = pctD w j := by
  have hle : decLen j ≤ w := decLen_le j w hw hj
  have hsplit := pctD_split (decLen j) (w - decLen j) j (lt_pow_decLen j)
  rw [decDigits, ← hsplit]
  congr 1
  omega

theorem decDigits_head : ∀ n : Nat, 1 ≤ n →
    ∃ c cs, decDigits n = c :: cs ∧ isDig c = true ∧ ¬(c = '0') := by
  intro n
  induction n using Nat.strong_induction_on with
  | _ n ih =>
    intro hn
    by_cases h10 : n < 10
    · refine ⟨Nat.digitChar n, [], ?_, digitChar_isDig h10, ?_⟩
      · rw [decDigits, decLen_small h10]
        show pctD 0 (n / 10) ++ [Nat.digitChar (n % 10)] = _
        rw [Nat.mod_eq_of_lt h10]
        rfl
      · interval_cases n <;> decide
    · have hbig : 10 ≤ n := by omega
      obtain ⟨c, cs, hd, hdig, hne⟩ :=
        ih (n / 10) (Nat.div_lt_self (by omega) (by norm_num))
          (Nat.div_pos hbig (by norm_num))
      refine ⟨c, cs ++ [Nat.digitChar (n % 10)], ?_, hdig, hne⟩
      rw [decDigits, decLen_big hbig]
      show pctD (decLen (n / 10)) (n / 10) ++ [Nat.digitChar (n % 10)] = _
      rw [show pctD (decLen (n / 10)) (n / 10) = decDigits (n / 10) from rfl,
        hd]
      rfl

theorem isFlag_of_dig {c : Char} (hd : isDig c = true) (h0 : ¬(c = '0')) :
    isFlag c = false := by
  cases hfc : isFlag c
  · rfl
  · exfalso
    simp only [isFlag, Bool.or_eq_true, decide_eq_true_eq] at hfc
    rcases hfc with ((((h | h) | h) | h) | h)
    · subst h; exact absurd hd (by decide)
    · exact h0 h
    · subst h; exact absurd hd (by decide)
    · subst h; exact absurd hd (by decide)
    · subst h; exact absurd hd (by decide)

theorem tw_append_all {p : Char → Bool} {u : List Char} (h : u.all p = true)
    (v : List Char) : (u ++ v).takeWhile p = u ++ v.takeWhile p := by
  induction u with
  | nil => rfl
  | cons c u ih =>
    have h' : (p c && u.all p) = true := by rw [← List.all_cons]; exact h
    obtain ⟨h1, h2⟩ := band_elim h'
    rw [List.cons_append, List.takeWhile_cons_of_pos h1, ih h2,
      List.cons_append]

theorem dw_append_all {p : Char → Bool} {u : List Char} (h : u.all p = true)
    (v : List Char) : (u ++ v).dropWhile p = v.dropWhile p := by
  induction u with
  | nil => rfl
  | cons c u ih =>
    have h' : (p c && u.all p) = true := by rw [← List.all_cons]; exact h
    obtain ⟨h1, h2⟩ := band_elim h'
    rw [List.cons_append, List.dropWhile_cons_of_pos h1]
    exact ih h2

theorem dw_length_le (p : Char → Bool) (l : List Char) :
    (l.dropWhile p).length ≤ l.length := by
  rw [← drop_tw_length p l, List.length_drop]
  omega

/-- Parsing the one inserted specifier `0` + width digits + `d`: the width
digits are the decimal representation of `h`, whose leading digit is not a
flag character, so the flag run is exactly `['0']` and the parsed width is
`h`. -/
theorem parseSpec_directive {h : Nat} (hh : 1 ≤ h) (sfx : List Char) :
    parseSpec ('0' :: (decDigits h ++ 'd' :: sfx)) =
      some (['0'], h, none, 'd', sfx) := by
  obtain ⟨c, cs, hd, hdig, hne⟩ := decDigits_head h hh
  have hall : (decDigits h).all isDig = true := decDigits_all_isDig h
  have hflag0 : isFlag '0' = true := by decide
  have hflagc : ¬(isFlag c = true) := by
    rw [isFlag_of_dig hdig hne]
    exact Bool.false_ne_true
  have e1 : ('0' :: (decDigits h ++ 'd' :: sfx)).takeWhile isFlag = ['0'] := by
    rw [List.takeWhile_cons_of_pos hflag0, hd, List.cons_append,
      List.takeWhile_cons_of_neg hflagc]
  have e2 : ('0' :: (decDigits h ++ 'd' :: sfx)).dropWhile isFlag =
      decDigits h ++ 'd' :: sfx := by
    rw [List.dropWhile_cons_of_pos hflag0, hd, List.cons_append,
      List.dropWhile_cons_of_neg hflagc, ← List.cons_append, ← hd]
  have e3 : (decDigits h ++ 'd' :: sfx).head? = some c := by
    rw [hd, List.cons_append]
    rfl
  have e4 : (decDigits h ++ 'd' :: sfx).takeWhile isDig = decDigits h := by
    rw [tw_append_all hall,
      List.takeWhile_cons_of_neg (by rw [isDig_d]; exact Bool.false_ne_true),
      List.append_nil]
  have e5 : (decDigits h ++ 'd' :: sfx).dropWhile isDig = 'd' :: sfx := by
    rw [dw_append_all hall,
      List.dropWhile_cons_of_neg (by rw [isDig_d]; exact Bool.false_ne_true)]
  have hstar : ¬(some c = some '*') := by
    intro hc
    have hc' : c = '*' := Option.some.inj hc
    subst hc'
    exact absurd hdig (by decide)
  have hdot : ¬((some 'd' : Option Char) = some '.') := by decide
  have hlm : ¬(isLenMod 'd' = true) := by decide
  simp only [parseSpec, e1, e2, e3, e4, e5, digitsVal_decDigits,
    List.head?_cons]
  rw [if_neg hstar, if_neg hdot]
  simp only [finishSpec]
  rw [if_neg hlm]

theorem finishSpec_len {flags : List Char} {w : Nat} {p : Option Nat}
    {l : List Char} {x : List Char × Nat × Option Nat × Char × List Char}
    (h : finishSpec flags w p l = some x) : x.2.2.2.2.length < l.length := by
  cases l with
  | nil => exact absurd h (by simp [finishSpec])
  | cons c l' =>
    simp only [finishSpec] at h
    by_cases hlm : isLenMod c = true
    · rw [if_pos hlm] at h
      cases l' with
      | nil => exact absurd h (by simp)
      | cons c2 l'' =>
        have hx : x = (flags, w, p, c2, l'') := (Option.some.inj h).symm
        subst hx
        simp only [List.length_cons]
        omega
    · rw [if_neg hlm] at h
      have hx : x = (flags, w, p, c, l') := (Option.some.inj h).symm
      subst hx
      simp only [List.length_cons]
      omega

theorem parseSpec_len {l : List Char}
    {x : List Char × Nat × Option Nat × Char × List Char}
    (h : parseSpec l = some x) : x.2.2.2.2.length < l.length := by
  simp only [parseSpec] at h
  have hr1 : (l.dropWhile isFlag).length ≤ l.length := dw_length_le _ _
  have hr2 : ((l.dropWhile isFlag).dropWhile isDig).length ≤
      (l.dropWhile isFlag).length := dw_length_le _ _
  by_cases h1 : (l.dropWhile isFlag).head? = some '*'
  · rw [if_pos h1] at h; exact absurd h (by simp)
  · rw [if_neg h1] at h
    by_cases h2 : ((l.dropWhile isFlag).dropWhile isDig).head? = some '.'
    · rw [if_pos h2] at h
      by_cases h3 :
          ((l.dropWhile isFlag).dropWhile isDig).tail.head? = some '*'
      · rw [if_pos h3] at h; exact absurd h (by simp)
      · rw [if_neg h3] at h
        have hfin := finishSpec_len h
        have ht : ((l.dropWhile isFlag).dropWhile isDig).tail.length =
            ((l.dropWhile isFlag).dropWhile isDig).length - 1 :=
          List.length_tail _
        have hr4 : (((l.dropWhile isFlag).dropWhile isDig).tail.dropWhile
            isDig).length ≤
            ((l.dropWhile isFlag).dropWhile isDig).tail.length :=
          dw_length_le _ _
        omega
    · rw [if_neg h2] at h
      have hfin := finishSpec_len h
      omega

theorem pyModAux_pct {j : Nat} (f : Nat) (rest : List Char) (used : Bool) :
    pyModAux j (f + 1) ('%' :: '%' :: rest) used =
      (pyModAux j f rest used).map (fun out => '%' :: out) := by
  simp [pyModAux]

theorem pyModAux_chr {j : Nat} {c : Char} (hc : ¬(c = '%')) (f : Nat)
    (rest : List Char) (used : Bool) :
    pyModAux j (f + 1) (c :: rest) used =
      (pyModAux j f rest used).map (fun out => c :: out) := by
  simp [pyModAux, hc]

theorem pyModAux_pspec_none {j : Nat} {c2 : Char} (hc2 : ¬(c2 = '%'))
    {rest2 : List Char} (hps : parseSpec (c2 :: rest2) = none) (f : Nat)
    (used : Bool) :
    pyModAux j (f + 1) ('%' :: c2 :: rest2) used = none := by
  simp [pyModAux, hc2, hps]

theorem pyModAux_pspec_used {j : Nat} {c2 : Char} (hc2 : ¬(c2 = '%'))
    {rest2 : List Char} {x : List Char × Nat × Option Nat × Char × List Char}
    (hps : parseSpec (c2 :: rest2) = some x) (f : Nat) :
    pyModAux j (f + 1) ('%' :: c2 :: rest2) true = none := by
  obtain ⟨flags, w, p, ty, rest3⟩ := x
  simp [pyModAux, hc2, hps]

theorem pyModAux_conv_none {j : Nat} {c2 : Char} (hc2 : ¬(c2 = '%'))
    {rest2 flags : List Char} {w : Nat} {p : Option Nat} {ty : Char}
    {rest3 : List Char}
    (hps : parseSpec (c2 :: rest2) = some (flags, w, p, ty, rest3))
    (hcv : convOut ty flags w p j = none) (f : Nat) :
    pyModAux j (f + 1) ('%' :: c2 :: rest2) false = none := by
  simp [pyModAux, hc2, hps, hcv]

theorem pyModAux_conv {j : Nat} {c2 : Char} (hc2 : ¬(c2 = '%'))
    {rest2 flags : List Char} {w : Nat} {p : Option Nat} {ty : Char}
    {rest3 piece : List Char}
    (hps : parseSpec (c2 :: rest2) = some (flags, w, p, ty, rest3))
    (hcv : convOut ty flags w p j = some piece) (f : Nat) :
    pyModAux j (f + 1) ('%' :: c2 :: rest2) false =
      (pyModAux j f rest3 true).map (fun out => piece ++ out) := by
  simp [pyModAux, hc2, hps, hcv]

theorem pyModAux_fuel {j : Nat} :
    ∀ (n : Nat) (l : List Char) (f g : Nat) (used : Bool),
    l.length ≤ n → l.length < f → l.length < g →
    pyModAux j f l used = pyModAux j g l used := by
  intro n
  induction n with
  | zero =>
    intro l f g used hn hf hg
    have hl : l = [] := List.eq_nil_of_length_eq_zero (by omega)
    subst hl
    obtain ⟨f', rfl⟩ : ∃ f', f = f' + 1 := ⟨f - 1, by omega⟩
    obtain ⟨g', rfl⟩ : ∃ g', g = g' + 1 := ⟨g - 1, by omega⟩
    rfl
  | succ n ih =>
    intro l f g used hn hf hg
    obtain ⟨f', rfl⟩ : ∃ f', f = f' + 1 := ⟨f - 1, by omega⟩
    obtain ⟨g', rfl⟩ : ∃ g', g = g' + 1 := ⟨g - 1, by omega⟩
    cases l with
    | nil => rfl
    | cons c rest =>
      have hlen : rest.length + 1 ≤ n + 1 := by simpa using hn
      have hlf : rest.length + 1 < f' + 1 := by simpa using hf
      have hlg : rest.length + 1 < g' + 1 := by simpa using hg
      by_cases hc : c = '%'
      · subst hc
        cases rest with
        | nil => rfl
        | cons c2 rest2 =>
          simp only [List.length_cons] at hlen hlf hlg
          by_cases hc2 : c2 = '%'
          · subst hc2
            rw [pyModAux_pct f', pyModAux_pct g',
              ih rest2 f' g' used (by omega) (by omega) (by omega)]
          · cases hps : parseSpec (c2 :: rest2) with
            | none =>
              rw [pyModAux_pspec_none hc2 hps f',
                pyModAux_pspec_none hc2 hps g']
            | some x =>
              obtain ⟨flags, w, p, ty, rest3⟩ := x
              have hps3 : rest3.length < rest2.length + 1 := by
                have hl := parseSpec_len hps
                simpa using hl
              cases used with
              | true =>
                rw [pyModAux_pspec_used hc2 hps f',
                  pyModAux_pspec_used hc2 hps g']
              | false =>
                cases hcv : convOut ty flags w p j with
                | none =>
                  rw [pyModAux_conv_none hc2 hps hcv f',
                    pyModAux_conv_none hc2 hps hcv g']
                | some piece =>
                  rw [pyModAux_conv hc2 hps hcv f',
                    pyModAux_conv hc2 hps hcv g',
                    ih rest3 f' g' true (by omega) (by omega) (by omega)]
      · rw [pyModAux_chr hc f', pyModAux_chr hc g',
          ih rest f' g' used (by omega) (by omega) (by omega)]

theorem pyModAux_fuel_norm {j : Nat} {l : List Char} {f : Nat} {used : Bool}
    (hf : l.length < f) :
    pyModAux j f l used = pyModAux j (l.length + 1) l used :=
  pyModAux_fuel l.length l f (l.length + 1) used le_rfl hf (by omega)

theorem pyModAux_copy {j : Nat} :
    ∀ (u v : List Char) (used : Bool) (f : Nat),
    '%' ∉ u → u.length + v.length < f →
    pyModAux j f (u ++ v) used =
      (pyModAux j (v.length + 1) v used).map (fun out => u ++ out) := by
  intro u
  induction u with
  | nil =>
    intro v used f _ hf
    rw [List.nil_append, pyModAux_fuel_norm (by simpa using hf)]
    cases pyModAux j (v.length + 1) v used <;> simp
  | cons c u ih =>
    intro v used f hmem hf
    obtain ⟨f', rfl⟩ : ∃ f', f = f' + 1 := ⟨f - 1, by omega⟩
    have hc : ¬(c = '%') := fun e => hmem (e ▸ List.mem_cons_self c u)
    have hf' : u.length + v.length < f' := by
      simp only [List.length_cons] at hf
      omega
    rw [List.cons_append, pyModAux_chr hc f',
      ih v used f' (fun hm => hmem (List.mem_cons_of_mem c hm)) hf']
    cases pyModAux j (v.length + 1) v used <;> simp

theorem pyModAux_done {j : Nat} {v : List Char} {f : Nat}
    (hv : '%' ∉ v) (hf : v.length < f) : pyModAux j f v true = some v := by
  have hcopy : pyModAux j f (v ++ []) true =
      (pyModAux j (([] : List Char).length + 1) ([] : List Char) true).map
        (fun out => v ++ out) :=
    pyModAux_copy v [] true f hv (by simpa using hf)
  rw [List.append_nil] at hcopy
  rw [hcopy]
  simp [pyModAux]

theorem convOut_d (flags : List Char) (w : Nat) (p : Option Nat) (j : Nat) :
    convOut 'd' flags w p j = some (fmtNumeric [] (decDigits j) flags w p) := by
  unfold convOut
  rw [if_pos (Or.inl rfl)]

theorem fmtNumeric_zeroflag (w j : Nat) :
    fmtNumeric [] (decDigits j) ['0'] w none =
      List.replicate (w - decLen j) '0' ++ decDigits j := by
  simp [fmtNumeric, decDigits_length]

theorem fmtNumeric_plain (j : Nat) :
    fmtNumeric [] (decDigits j) [] 0 none = decDigits j := by
  simp [fmtNumeric]

/-- Scanning the inserted directive `%0⟨digits of h⟩d`: with the argument
not yet consumed and `j < 10 ^ h` it emits exactly the `h`-wide zero-padded
decimal rendering of `j` and consumes the argument. -/
theorem pyModAux_directive {j h : Nat} (hh : 1 ≤ h) (hj : j < 10 ^ h)
    {sfx : List Char} (hs : '%' ∉ sfx) {f : Nat}
    (hf : ('%' :: '0' :: (decDigits h ++ 'd' :: sfx)).length < f) :
    pyModAux j f ('%' :: '0' :: (decDigits h ++ 'd' :: sfx)) false =
      some (pctD h j ++ sfx) := by
  obtain ⟨f', rfl⟩ : ∃ f', f = f' + 1 := ⟨f - 1, by omega⟩
  have hconv : convOut 'd' ['0'] h none j = some (pctD h j) := by
    rw [convOut_d, fmtNumeric_zeroflag, replicate_pad_decDigits hh hj]
  have hsl : sfx.length < f' := by
    simp only [List.length_cons, List.length_append] at hf
    omega
  rw [pyModAux_conv (by decide : ¬(('0' : Char) = '%'))
      (parseSpec_directive hh sfx) hconv f',
    pyModAux_done hs hsl]
  rfl

/-- The full rendering equation: for a template whose split prefix and
suffix are free of `'%'` and an index below the range bound, Python's
`%`-formatting of `pfx + "%0⟨h⟩d" + sfx` with argument `j` succeeds and
returns exactly `renderName`. -/
theorem pyMod_template {t : String} {j : Nat} (hh : 1 ≤ hashCount t)
    (hj : j < 10 ^ hashCount t) (hpf : '%' ∉ splitPfx t)
    (hsf : '%' ∉ splitSfx t) :
    pyMod (splitPfx t ++ ('%' :: '0' :: (decDigits (hashCount t) ++ ['d'])) ++
        splitSfx t) j = some (renderName t j).data := by
  have hassoc : splitPfx t ++
      ('%' :: '0' :: (decDigits (hashCount t) ++ ['d'])) ++ splitSfx t =
      splitPfx t ++
        ('%' :: '0' :: (decDigits (hashCount t) ++ 'd' :: splitSfx t)) := by
    simp
  rw [hassoc]
  simp only [pyMod]
  have hflen : (splitPfx t).length +
      ('%' :: '0' :: (decDigits (hashCount t) ++ 'd' :: splitSfx t)).length <
      (splitPfx t ++
        ('%' :: '0' :: (decDigits (hashCount t) ++ 'd' :: splitSfx t))).length
        + 1 := by
    rw [List.length_append]
    omega
  rw [pyModAux_copy _ _ false _ hpf hflen]
  rw [pyModAux_directive hh hj hsf (Nat.lt_succ_self _)]
  simp [renderName, List.append_assoc]

theorem pyMod_fmtPct (n : Nat) :
    pyMod ['%', '%', '0', '%', 'd', 'd'] n =
      some ('%' :: '0' :: (decDigits n ++ ['d'])) := by
  have hps : parseSpec ['d', 'd'] = some ([], 0, none, 'd', ['d']) := by
    decide
  have hconv : convOut 'd' [] 0 none n = some (decDigits n) := by
    rw [convOut_d, fmtNumeric_plain]
  have h7 : pyMod ['%', '%', '0', '%', 'd', 'd'] n =
      pyModAux n (((4 + 1) + 1) + 1) ['%', '%', '0', '%', 'd', 'd'] false :=
    rfl
  rw [h7, pyModAux_pct ((4 + 1) + 1),
    pyModAux_chr (by decide : ¬(('0' : Char) = '%')) (4 + 1),
    pyModAux_conv (by decide : ¬(('d' : Char) = '%')) hps hconv 4,
    pyModAux_done (by decide : ('%' : Char) ∉ ['d'])
      (by decide : (['d'] : List Char).length < 4)]
  rfl

theorem mk_data (s : String) : String.mk s.data = s := rfl

theorem collectMatches_some {listing : List String} {dir : String}
    {tstr : List Char} {g : Nat → String} :
    ∀ js : List Nat, (∀ j ∈ js, pyMod tstr j = some (g j).data) →
    collectMatches listing dir tstr js =
      some ((js.filter (fun j => decide (g j ∈ listing))).map
        (fun j => joinPath dir (g j))) := by
  intro js
  induction js with
  | nil => intro _; rfl
  | cons j js ih =>
    intro hall
    have hj := hall j (List.mem_cons_self _ _)
    have hrest := ih (fun j' hj' => hall j' (List.mem_cons_of_mem _ hj'))
    simp only [collectMatches]
    rw [hj, hrest]
    simp only [mk_data]
    by_cases hm : g j ∈ listing
    · rw [if_pos hm, List.filter_cons_of_pos (by simpa using hm),
        List.map_cons]
    · rw [if_neg hm, List.filter_cons_of_neg (by simpa using hm)]

theorem find_matching_images_eq (listing : List String) {p t : String}
    {i : Nat} (h : template_regex (splitPath p).2 = (some t, i)) :
    find_matching_images listing p =
      collectMatches listing (dirOf p)
        (splitPfx t ++ ('%' :: '0' :: (decDigits (hashCount t) ++ ['d'])) ++
          splitSfx t)
        (List.range (10 ^ hashCount t)) := by
  unfold find_matching_images
  rw [h]
  simp only [pyMod_fmtPct]

/-- C6 (amended).  When a template is inferred, let `h` be the number of
`'#'` characters of the canonical template string (this equals `digit_count`
whenever the filename contains no literal `'#'`; the counterexample
`materialize_cex` shows they can differ), and suppose the template's
before-first-`'#'` prefix and after-last-`'#'` suffix contain no `'%'`
character (otherwise Python's `%`-formatting of the probe names diverges
from the plain rendering: `'%%'` collapses to `'%'` and a stray `'%'`
raises, aborting the call).  Then `find_matching_images` raises no
exception and returns the matches of at most `10 ^ h` candidates; a
candidate index `j < 10 ^ h` contributes its joined rendered name if and
only if the rendered name — prefix, `j` zero-padded to `h` digits, suffix —
occurs in the single directory listing; and the result enumerates the
matching indices in strictly increasing order. -/
theorem materialize_spec (listing : List String) (p t : String) (i : Nat)
    (h : template_regex (splitPath p).2 = (some t, i))
    (hpf : '%' ∉ splitPfx t) (hsf : '%' ∉ splitSfx t) :
    find_matching_images listing p =
      some (((List.range (10 ^ hashCount t)).filter
          (fun j => decide (renderName t j ∈ listing))).map
        (fun j => joinPath (dirOf p) (renderName t j))) ∧
    (((List.range (10 ^ hashCount t)).filter
        (fun j => decide (renderName t j ∈ listing))).map
      (fun j => joinPath (dirOf p) (renderName t j))).length ≤
      10 ^ hashCount t ∧
    (∀ j, j < 10 ^ hashCount t →
      (joinPath (dirOf p) (renderName t j) ∈
          ((List.range (10 ^ hashCount t)).filter
              (fun j => decide (renderName t j ∈ listing))).map
            (fun j => joinPath (dirOf p) (renderName t j)) ↔
        renderName t j ∈ listing)) ∧
    List.Pairwise (· < ·) ((List.range (10 ^ hashCount t)).filter
      (fun j => decide (renderName t j ∈ listing))) := by
  have hh : 0 < hashCount t := by
    obtain ⟨pfx, dgts, ext, hI, ht, _⟩ := template_regex_inv h
    obtain ⟨h1, _⟩ := inferT_dgts hI
    rw [ht, hashCount_template]
    omega
  have hfind : find_matching_images listing p =
      some (((List.range (10 ^ hashCount t)).filter
          (fun j => decide (renderName t j ∈ listing))).map
        (fun j => joinPath (dirOf p) (renderName t j))) := by
    rw [find_matching_images_eq listing h]
    exact collectMatches_some (List.range (10 ^ hashCount t))
      (fun j hj => pyMod_template hh (List.mem_range.mp hj) hpf hsf)
  refine ⟨hfind, ?_, ?_, (List.pairwise_lt_range _).filter _⟩
  · rw [List.length_map]
    calc ((List.range (10 ^ hashCount t)).filter
          (fun j => decide (renderName t j ∈ listing))).length
        ≤ (List.range (10 ^ hashCount t)).length := List.length_filter_le _ _
      _ = 10 ^ hashCount t := List.length_range _
  · intro j hj
    constructor
    · intro hmem
      obtain ⟨j', hj'mem, hj'eq⟩ := List.mem_map.mp hmem
      have hj'filter := List.mem_filter.mp hj'mem
      have hj'range : j' < 10 ^ hashCount t := List.mem_range.mp hj'filter.1
      have hj'in : renderName t j' ∈ listing := of_decide_eq_true hj'filter.2
      have hrr : renderName t j' = renderName t j :=
        joinPath_inj (renderName_head_slash hh j' j) hj'eq
      have : j' = j := renderName_inj hj'range hj hrr
      subst this
      exact hj'in
    · intro hin
      exact List.mem_map.mpr
        ⟨j, List.mem_filter.mpr ⟨List.mem_range.mpr hj, decide_eq_true hin⟩,
          rfl⟩

theorem materialize_spec_witness :
    find_matching_images ["a_001.img", "a_002.img", "a_004.img"]
      "a_001.img" =
      some (((List.range (10 ^ hashCount "a_###.img")).filter
          (fun j => decide (renderName "a_###.img" j ∈
            ["a_001.img", "a_002.img", "a_004.img"]))).map
        (fun j => joinPath (dirOf "a_001.img") (renderName "a_###.img" j))) :=
  (materialize_spec ["a_001.img", "a_002.img", "a_004.img"] "a_001.img"
    "a_###.img" 1 (by decide) (by decide) (by decide)).1
